import Mathlib

/-!
Shallow embedding of `pymbolic/geometric_algebra.py` (geometric-algebra
multivectors over a metric vector space) and proofs about the claims of the
specification.

Modelling conventions, used throughout:

* Coefficients are integers (`ℤ`): the source is coefficient-type agnostic
  ("real or symbolic ring-like values" with an injected exact zero test);
  `ℤ` is an executable linearly ordered commutative ring whose arithmetic
  reduces inside the kernel and whose zero test (`= 0`) models
  `pymbolic.primitives.is_zero`.
* A Python dict with integer (bitmask) keys is modelled by `GaDict`: a finite
  key set together with a value function that is zero off the key set.  A key
  that is present may well map to `0` (Python dicts can store zeros); absence
  of a key is distinguished from presence of a zero value, exactly as in the
  source.
* Python object identity of `Space` instances (`self.space is not other.space`)
  is modelled by equality of `Space` values, which carry an instance token
  `sid`: the runtime never creates two distinct Space objects with the same
  token, and two algebraically identical but distinct instances differ in
  `sid`.
* Exceptions are modelled with `Except PyErr`; the loops of the source
  (`while`, `for`) are modelled with structural fuel recursion so that every
  definition reduces in the kernel (fuel is always sufficient by construction,
  see the comments at each definition).
-/

/-- Python exception kinds raised by the module. -/
inductive PyErr
  | valueError
  | typeError
  | notImplementedError
  | attributeError
  | assertionError
  | indexError
deriving DecidableEq

/-! ## Bit-counting helpers (source lines 52-82) -/

/-- Fuel-driven body of `bit_count` (source lines 52-61): Kernighan's loop
`while i: i &= i - 1; count += 1`.  Each iteration strictly decreases `i`
(clearing the lowest set bit), so fuel `i + 1` always suffices. -/
def bitCountGo : ℕ → ℕ → ℕ
  | 0, _ => 0
  | fuel + 1, i => if i = 0 then 0 else bitCountGo fuel (i &&& (i - 1)) + 1

/-- `bit_count(i)` from the source: the number of set bits of `i`. -/
def bit_count (i : ℕ) : ℕ := bitCountGo (i + 1) i

/-- Fuel-driven body of the loop of `canonical_reordering_sign`
(source lines 73-77): `while a_bits: s += bit_count(a_bits & b_bits);
a_bits >>= 1`.  Each iteration halves `a`, so fuel `a + 1` suffices. -/
def crsSumGo : ℕ → ℕ → ℕ → ℕ
  | 0, _, _ => 0
  | fuel + 1, a, b => if a = 0 then 0 else bit_count (a &&& b) + crsSumGo fuel (a >>> 1) b

/-- The total swap count accumulated by `canonical_reordering_sign` when
started with first argument `a` (the source shifts its argument once before
entering the loop; `crs_sum` is the loop itself). -/
def crs_sum (a b : ℕ) : ℕ := crsSumGo (a + 1) a b

/-- `canonical_reordering_sign(a_bits, b_bits)` (source lines 63-82): shift
`a_bits` right once, accumulate `bit_count(a_bits & b_bits)` while shifting,
return `-1` if the total is odd (`s & 1`) and `1` otherwise. -/
def canonical_reordering_sign (a_bits b_bits : ℕ) : ℤ :=
  if crs_sum (a_bits >>> 1) b_bits &&& 1 = 1 then -1 else 1

/-! ## Space (source lines 88-173) -/

/-- A `Space` (source lines 88-128).  `dims` is `len(self.basis_names)`
(the basis names themselves are only used by the excluded display
collaborator, so only their count is modelled); `metric` is
`self.metric_matrix` as a row-major list of rows; `sid` is the instance
identity token (see the module comment). -/
structure Space where
  sid : ℕ
  dims : ℕ
  metric : List (List ℤ)

instance : DecidableEq Space := fun s t =>
  decidable_of_iff (s.sid = t.sid ∧ s.dims = t.dims ∧ s.metric = t.metric)
    (by cases s; cases t; simp)

/-- Entry `(i, j)` of the metric matrix, `self.metric_matrix[i, j]`.
Out-of-range reads default to `0`; `Space.__init__` validates the shape, and
every use in the proofs is guarded by in-range hypotheses. -/
def Space.m (sp : Space) (i j : ℕ) : ℤ := (sp.metric.getD i []).getD j 0

/-- `Space.is_orthogonal` (source lines 153-156): all off-diagonal entries of
the metric matrix are zero. -/
def Space.is_orthogonal (sp : Space) : Bool :=
  decide (∀ i ∈ Finset.range sp.dims, ∀ j ∈ Finset.range sp.dims, i ≠ j → sp.m i j = 0)

/-- The attributes a `Space` instance owns: `Space.__init__` (source lines
127-128) assigns exactly `basis_names` and `metric_matrix` and nothing else
ever adds an attribute. -/
inductive SpaceAttr
  | basis_names
  | metric_matrix
  | mmat
deriving DecidableEq

/-- Whether a `Space` instance has the given attribute. -/
def Space.hasAttr : SpaceAttr → Bool
  | .basis_names => true
  | .metric_matrix => true
  | .mmat => false

/-- `Space.is_euclidean` (source lines 158-161) evaluates
`(self.metric_matrix == np.eye(self.mmat.shape[0])).all()`.  The name `mmat`
is not among the attributes `__init__` assigns (lines 127-128), so the
attribute lookup raises `AttributeError` before any comparison happens; the
`hasAttr` branch below records what the line would compute if the lookup
succeeded (the metric equals the identity matrix). -/
def Space.is_euclidean (sp : Space) : Except PyErr Bool :=
  if Space.hasAttr SpaceAttr.mmat then
    Except.ok (decide (∀ i ∈ Finset.range sp.dims, ∀ j ∈ Finset.range sp.dims,
      sp.m i j = if i = j then 1 else 0))
  else Except.error PyErr.attributeError

/-- The identity metric matrix `np.eye n` (source line 118). -/
def matEye (n : ℕ) : List (List ℤ) :=
  (List.range n).map fun i => (List.range n).map fun j => if j = i then 1 else 0

/-- `Space.__init__` (source lines 100-128).  `basis` is either a dimension
count or `None` (names, when passed, only matter through their count);
`metric` is the optional metric matrix.  Raises `TypeError` when both are
`None`, resolves the dimension count from the metric when `basis` is `None`,
defaults the metric to the identity, and raises `ValueError` when the metric
shape is not `dims × dims`. -/
def Space.init (sid : ℕ) (basis : Option ℕ) (metric : Option (List (List ℤ))) :
    Except PyErr Space :=
  if basis = none ∧ metric = none then Except.error PyErr.typeError
  else
    let n : ℕ := match basis with
      | some b => b
      | none => (metric.getD []).length
    let mm := metric.getD (matEye n)
    if mm.length = n ∧ ∀ row ∈ mm, row.length = n then Except.ok ⟨sid, n, mm⟩
    else Except.error PyErr.valueError

/-- `get_euclidean_space` (source lines 169-173): the canonical Euclidean
space of the given dimension count, `Space(n)`.  The argument is `Option`
because `MultiVector.__init__` calls it with `dimensions = None` when the
dimension count could not be inferred.  The canonical spaces carry instance
token `0` (the memoized factory always returns the same object per count). -/
def get_euclidean_space (n : Option ℕ) : Except PyErr Space :=
  Space.init 0 n none

/-- The value `get_euclidean_space` returns for an actual dimension count. -/
def eucSpace (n : ℕ) : Space := ⟨0, n, matEye n⟩

/-! ## The sparse data map of a multivector -/

/-- Model of the Python dict `MultiVector.data`: a finite set of blade
bitmask keys and the stored value at each key.  Keys may map to `0` (Python
dicts can store zeros; see `MultiVector.__init__`, which stores non-tuple
dict data verbatim); off the key set the value function is fixed to `0`,
which also makes `val` coincide with the pervasive `self.data.get(bits, 0)`
idiom of the source. -/
@[ext]
structure GaDict where
  keys : Finset ℕ
  val : ℕ → ℤ
  zero_off : ∀ k, k ∉ keys → val k = 0

instance : DecidableEq GaDict := fun d e =>
  decidable_of_iff (d.keys = e.keys ∧ ∀ k ∈ d.keys, d.val k = e.val k) (by
    constructor
    · rintro ⟨hk, hv⟩
      ext k
      · rw [hk]
      · by_cases h : k ∈ d.keys
        · exact hv k h
        · rw [d.zero_off k h, e.zero_off k (hk ▸ h)]
    · rintro rfl
      exact ⟨rfl, fun _ _ => rfl⟩)

/-- Build a dict from a candidate key set and a value function, dropping the
keys whose value is zero.  This is the common shape of every dict the source
builds with an `is_zero` filter (construction normalization, `__add__`,
`_generic_product`): the final dict holds exactly the keys whose accumulated
value is nonzero. -/
def GaDict.ofFun (s : Finset ℕ) (f : ℕ → ℤ) : GaDict where
  keys := s.filter fun k => f k ≠ 0
  val k := if k ∈ s then f k else 0
  zero_off := by
    intro k hk
    simp only [Finset.mem_filter, not_and, Decidable.not_not] at hk
    by_cases hs : k ∈ s
    · simp [hs, hk hs]
    · simp [hs]

/-- The dict `{k : c}` with a single key, stored verbatim (`c` may be `0`). -/
def GaDict.single (k : ℕ) (c : ℤ) : GaDict where
  keys := {k}
  val j := if j = k then c else 0
  zero_off := by
    intro j hj
    simp only [Finset.mem_singleton] at hj
    simp [hj]

/-- The empty dict `{}`. -/
def GaDict.empty : GaDict where
  keys := ∅
  val _ := 0
  zero_off := fun _ _ => rfl

/-- The no-stored-zero invariant claimed by the spec for `MultiVector.data`. -/
def GaDict.wf (d : GaDict) : Prop := ∀ k ∈ d.keys, d.val k ≠ 0

instance (d : GaDict) : Decidable d.wf :=
  inferInstanceAs (Decidable (∀ k ∈ d.keys, d.val k ≠ 0))

/-! ## Blade product weights (source lines 177-274) -/

/-- Fuel-driven body of `_shared_metric_coeff` (source lines 179-191).  The
source walks `basis_idx` upward, multiplying in `metric_matrix[i, i]` for
every set bit `i` of `shared_bits` and clearing that bit, until the mask is
exhausted.  Here the mask is shifted right instead of clearing tested bits,
which visits exactly the same set bits at the same indices; the shifted mask
reaches `0` after at most `bits` steps, so fuel `bits + 1` suffices. -/
def smcGo (sp : Space) : ℕ → ℕ → ℕ → ℤ
  | 0, _, _ => 1
  | fuel + 1, bits, idx =>
    if bits = 0 then 1
    else if bits &&& 1 = 1 then sp.m idx idx * smcGo sp fuel (bits >>> 1) (idx + 1)
    else smcGo sp fuel (bits >>> 1) (idx + 1)

/-- `_shared_metric_coeff(shared_bits, space)`: the product of the metric
diagonal entries over the set bits of `shared_bits`. -/
def shared_metric_coeff (sp : Space) (bits : ℕ) : ℤ := smcGo sp (bits + 1) bits 0

/-- The product strategies, `_GAProduct` subclasses (source lines 193-274). -/
inductive GAProduct
  | outer
  | geometric
  | inner
  | leftContraction
  | rightContraction
  | scalar
deriving DecidableEq

/-- The `orthogonal_blade_product_weight` static method of each strategy
(source lines 196-274), valid when the metric is diagonal.  For the outer
product the generic and orthogonal variants are the same function
(line 201). -/
def orthogonal_blade_product_weight (pk : GAProduct) (a_bits b_bits : ℕ) (sp : Space) : ℤ :=
  match pk with
  | .outer => if a_bits &&& b_bits = 0 then 1 else 0
  | .geometric =>
    if a_bits &&& b_bits ≠ 0 then shared_metric_coeff sp (a_bits &&& b_bits) else 1
  | .inner =>
    if a_bits &&& b_bits = a_bits ∨ a_bits &&& b_bits = b_bits then
      shared_metric_coeff sp (a_bits &&& b_bits)
    else 0
  | .leftContraction =>
    if a_bits &&& b_bits = b_bits then shared_metric_coeff sp (a_bits &&& b_bits) else 0
  | .rightContraction =>
    if a_bits &&& b_bits = a_bits then shared_metric_coeff sp (a_bits &&& b_bits) else 0
  | .scalar => if a_bits = b_bits then shared_metric_coeff sp a_bits else 0

/-- Whether the `generic_blade_product_weight` static method of the strategy
raises `NotImplementedError` (source lines 203-274): every strategy except
the outer product does, for any arguments. -/
def generic_weight_raises (pk : GAProduct) : Bool :=
  match pk with
  | .outer => false
  | _ => true

/-! ## MultiVector (source lines 280-663) -/

/-- A `MultiVector` (source lines 280-381): the owning space and the sparse
blade-bitmask-to-coefficient map. -/
structure MultiVector where
  space : Space
  data : GaDict

instance : DecidableEq MultiVector := fun A B =>
  decidable_of_iff (A.space = B.space ∧ A.data = B.data)
    (by cases A; cases B; simp)

/-- `MultiVector.__neg__` (source lines 419-423): negate every stored
coefficient (the resulting dict has int keys, so `__init__` stores it
verbatim, keeping the key set). -/
def MultiVector.neg (A : MultiVector) : MultiVector where
  space := A.space
  data := ⟨A.data.keys, fun b => -A.data.val b, by
    intro k hk
    show -A.data.val k = 0
    rw [A.data.zero_off k hk, neg_zero]⟩

/-- `MultiVector.__add__` between two multivectors (source lines 425-440):
requires the identical space, sums coefficients over the union of the key
sets, and drops keys whose sum is zero. -/
def MultiVector.add (A B : MultiVector) : Except PyErr MultiVector :=
  if A.space ≠ B.space then Except.error PyErr.valueError
  else Except.ok ⟨A.space,
    GaDict.ofFun (A.data.keys ∪ B.data.keys) fun b => A.data.val b + B.data.val b⟩

/-- `MultiVector.__sub__` (source lines 445-446): `self + (-other)`. -/
def MultiVector.sub (A B : MultiVector) : Except PyErr MultiVector :=
  A.add B.neg

/-- The value accumulated by the `_generic_product` double loop (source lines
469-483) at result key `nb`.  A pair `(sbits, obits)` contributes to `nb`
exactly when `sbits ^ obits = nb`, i.e. `obits = sbits ^^^ nb`; `B.val` is
zero off `B`'s keys, so summing over `A`'s keys alone reproduces the loop
(pairs the loop never visits contribute `0`, and terms the `is_zero(weight)`
test skips also contribute `0`). -/
def prodVal (pk : GAProduct) (sp : Space) (dA dB : GaDict) (nb : ℕ) : ℤ :=
  ∑ s ∈ dA.keys,
    orthogonal_blade_product_weight pk s (s ^^^ nb) sp *
      (canonical_reordering_sign s (s ^^^ nb) : ℤ) * dA.val s * dB.val (s ^^^ nb)

/-- The candidate result keys of the product double loop: every XOR of a key
of `dA` with a key of `dB`. -/
def prodKeys (dA dB : GaDict) : Finset ℕ :=
  (dA.keys ×ˢ dB.keys).image fun p => p.1 ^^^ p.2

/-- `MultiVector._generic_product` (source lines 455-485).  The identity of
the spaces is checked before the loop runs (line 465), so a space mismatch
raises `ValueError` first.  When the space is orthogonal, the orthogonal
weight function is total and the loop builds the result dict.  Otherwise the
generic weight function is used: it raises `NotImplementedError` on its first
call — which happens as soon as both dicts are nonempty — except for the
outer product, whose generic weight is the orthogonal one (line 201). -/
def MultiVector.generic_product (A B : MultiVector) (pk : GAProduct) :
    Except PyErr MultiVector :=
  if A.space ≠ B.space then Except.error PyErr.valueError
  else if A.space.is_orthogonal then
    Except.ok ⟨A.space,
      GaDict.ofFun (prodKeys A.data B.data) (prodVal pk A.space A.data B.data)⟩
  else if generic_weight_raises pk ∧ A.data.keys.Nonempty ∧ B.data.keys.Nonempty then
    Except.error PyErr.notImplementedError
  else
    Except.ok ⟨A.space,
      GaDict.ofFun (prodKeys A.data B.data) (prodVal pk A.space A.data B.data)⟩

/-- `MultiVector.__mul__` between two multivectors (source lines 487-491):
the geometric product. -/
def MultiVector.mul (A B : MultiVector) : Except PyErr MultiVector :=
  A.generic_product B .geometric

/-- `MultiVector.__xor__` between two multivectors (source lines 497-501):
the outer product. -/
def MultiVector.outer (A B : MultiVector) : Except PyErr MultiVector :=
  A.generic_product B .outer

/-- `MultiVector.__or__` between two multivectors (source lines 507-511):
the inner product. -/
def MultiVector.inner (A B : MultiVector) : Except PyErr MultiVector :=
  A.generic_product B .inner

/-- `MultiVector.__lshift__` between two multivectors (source lines 517-521):
the left contraction. -/
def MultiVector.lcontract (A B : MultiVector) : Except PyErr MultiVector :=
  A.generic_product B .leftContraction

/-- `MultiVector.__rshift__` between two multivectors (source lines 527-531):
the right contraction. -/
def MultiVector.rcontract (A B : MultiVector) : Except PyErr MultiVector :=
  A.generic_product B .rightContraction

/-- `MultiVector.as_scalar` (source lines 645-652): raises `ValueError` if
any stored key is a nonzero bitmask, otherwise returns the coefficient at
key `0` (which is `0` when the dict is empty). -/
def MultiVector.as_scalar (A : MultiVector) : Except PyErr ℤ :=
  if ∀ k ∈ A.data.keys, k = 0 then Except.ok (A.data.val 0)
  else Except.error PyErr.valueError

/-- `MultiVector.scalar_product` between two multivectors (source lines
537-541): the scalar-product generic product followed by `as_scalar`. -/
def MultiVector.scalar_product (A B : MultiVector) : Except PyErr ℤ :=
  (A.generic_product B .scalar).bind MultiVector.as_scalar

/-- `MultiVector.rev` (source lines 545-557): flip the sign of each blade of
grade `g` with `g*(g-1)//2` odd.  Every stored key is kept. -/
def MultiVector.rev (A : MultiVector) : MultiVector where
  space := A.space
  data := ⟨A.data.keys,
    fun b => if bit_count b * (bit_count b - 1) / 2 % 2 = 0
      then A.data.val b else -A.data.val b, by
    intro k hk
    show (if bit_count k * (bit_count k - 1) / 2 % 2 = 0
      then A.data.val k else -A.data.val k) = 0
    rw [A.data.zero_off k hk]
    simp⟩

/-- `MultiVector.invol` (source lines 559-571): flip the sign of each blade
of odd grade.  Every stored key is kept. -/
def MultiVector.invol (A : MultiVector) : MultiVector where
  space := A.space
  data := ⟨A.data.keys,
    fun b => if bit_count b % 2 = 0 then A.data.val b else -A.data.val b, by
    intro k hk
    show (if bit_count k % 2 = 0 then A.data.val k else -A.data.val k) = 0
    rw [A.data.zero_off k hk]
    simp⟩

/-- `MultiVector.norm_squared` (source lines 573-574):
`self.rev().scalar_product(self)`. -/
def MultiVector.norm_squared (A : MultiVector) : Except PyErr ℤ :=
  A.rev.scalar_product A

/-- `MultiVector.project` (source lines 617-623): keep exactly the terms
whose blade has the given grade. -/
def MultiVector.project (A : MultiVector) (grade : ℕ) : MultiVector where
  space := A.space
  data := ⟨A.data.keys.filter fun b => bit_count b = grade,
    fun b => if bit_count b = grade then A.data.val b else 0, by
    intro k hk
    show (if bit_count k = grade then A.data.val k else 0) = 0
    by_cases hg : bit_count k = grade
    · rw [if_pos hg]
      refine A.data.zero_off k fun hmem => hk ?_
      exact Finset.mem_filter.mpr ⟨hmem, hg⟩
    · rw [if_neg hg]⟩

/-- `MultiVector.__eq__` between two multivectors (source lines 588-592):
compares only the data dicts; the spaces are never compared. -/
def MultiVector.pyEq (A B : MultiVector) : Bool :=
  decide (A.data = B.data)

/-! ## Permutation sign and blade normalization (source lines 34-50, 137-151) -/

/-- Swap the entries at positions `i` and `j` of a list, the simultaneous
assignment `p[i], p[j] = p[j], p[i]` of the source (line 47). -/
def listSwap (p : List ℕ) (i j : ℕ) : List ℕ :=
  (p.set i (p.getD j 0)).set j (p.getD i 0)

/-- The inner `while p[j] != i: j += 1` scan of `permutation_sign` (source
lines 42-43): the first position `k ≥ j` with `p[k] = tgt`, or `none` when
the scan runs off the end of the list (an `IndexError` in Python).  Fuel
bounds the number of scan steps; `p.length + 1` always suffices. -/
def findFrom : ℕ → List ℕ → ℕ → ℕ → Option ℕ
  | 0, _, _, _ => none
  | fuel + 1, p, j, tgt =>
    if j < p.length then
      if p.getD j 0 = tgt then some j else findFrom fuel p (j + 1) tgt
    else none

/-- The outer `for i in xrange(len(p))` loop of `permutation_sign` (source
lines 38-48), carrying the running sign `s`.  At each position the item `i`
is located at or after position `i`, swapped into place unless already there
(flipping the sign), and the loop advances.  `i` grows toward `p.length`
(swaps preserve the length), so fuel `p.length + 1` always suffices. -/
def psGo : ℕ → List ℕ → ℕ → ℤ → Option ℤ
  | 0, _, _, _ => none
  | fuel + 1, p, i, s =>
    if i < p.length then
      match findFrom (p.length + 1) p i i with
      | none => none
      | some j => if j = i then psGo fuel p (i + 1) s else psGo fuel (listSwap p i j) (i + 1) (-s)
    else some s

/-- `permutation_sign(p)` (source lines 34-50): the selection-style sign
computation.  Returns `none` when an inner scan runs off the list (never the
case for an actual permutation of `0..n-1`). -/
def permutation_sign (p : List ℕ) : Option ℤ := psGo (p.length + 1) p 0 1

/-- The accumulated bitmask `bits |= 2**bi` of `bits_and_sign` (source lines
147-149). -/
def bits_of (t : List ℕ) : ℕ := t.foldl (fun bits bi => bits ||| 2 ^ bi) 0

/-- The lexicographic tuple comparison Python's `sorted` uses on the
`(bindex, num)` pairs of `bits_and_sign`. -/
def pairLe (x y : ℕ × ℕ) : Prop := x.1 < y.1 ∨ (x.1 = y.1 ∧ x.2 ≤ y.2)

instance : DecidableRel pairLe := fun x y =>
  inferInstanceAs (Decidable (x.1 < y.1 ∨ (x.1 = y.1 ∧ x.2 ≤ y.2)))

instance : IsTotal (ℕ × ℕ) pairLe :=
  ⟨fun a b => by
    rw [pairLe, pairLe]
    omega⟩

instance : IsTrans (ℕ × ℕ) pairLe :=
  ⟨fun a b c hab hbc => by
    rw [pairLe] at *
    omega⟩

/-- The `sorted((bindex, num) for num, bindex in enumerate(basis_indices))`
list of `bits_and_sign` (source lines 142-144), modelled with a stable
structurally-recursive sort (Python's `sorted` is stable; on the distinct
lexicographic keys here any sort agrees). -/
def sortedPairs (t : List ℕ) : List (ℕ × ℕ) :=
  (t.enum.map fun p => (p.2, p.1)).insertionSort pairLe

/-- `blade_permutation = [num for bindex, num in sorted_basis_indices]`
(source line 145). -/
def bladePerm (t : List ℕ) : List ℕ := (sortedPairs t).map Prod.snd

/-- `Space.bits_and_sign(basis_indices)` (source lines 137-151): assert the
indices are distinct, build the OR-of-powers bitmask, and compute the sign of
the sorting permutation with `permutation_sign`.  (The method lives on
`Space` only for memoization; it never reads the space.) -/
def bits_and_sign (t : List ℕ) : Except PyErr (ℕ × ℤ) :=
  if t.Nodup then
    match permutation_sign (bladePerm t) with
    | some s => Except.ok (bits_of t, s)
    | none => Except.error PyErr.indexError
  else Except.error PyErr.assertionError

/-- The sign component of `bits_and_sign` as a total function (meaningful
whenever `bits_and_sign` succeeds, which the callers below establish). -/
def sign_of (t : List ℕ) : ℤ := (permutation_sign (bladePerm t)).getD 1

/-! ## MultiVector construction (source lines 325-381) -/

/-- Resolve the `space` argument of `MultiVector.__init__` (source lines
354-359): call `get_euclidean_space(dimensions)` when no space is given,
otherwise check the inferred dimension count (when there is one) against the
given space. -/
def resolveSpace (dimensions : Option ℕ) (osp : Option Space) : Except PyErr Space :=
  match osp with
  | none => get_euclidean_space dimensions
  | some sp =>
    match dimensions with
    | some d => if sp.dims ≠ d then Except.error PyErr.valueError else Except.ok sp
    | none => Except.ok sp

/-- The normalization loop of `MultiVector.__init__` (source lines 364-375)
on a dict whose keys are all basis-index tuples, given as an association
list: every key goes through `bits_and_sign` (propagating its failures, in
list order), and `sign * coeff` is accumulated per resulting bitmask,
dropping entries whose accumulated value is zero. -/
def normalizeTuples (entries : List (List ℕ × ℤ)) : Except PyErr GaDict :=
  (entries.mapM fun e => bits_and_sign e.1).map fun _ =>
    GaDict.ofFun (entries.map fun e => bits_of e.1).toFinset fun b =>
      ((entries.filter fun e => bits_of e.1 = b).map fun e => (sign_of e.1 : ℤ) * e.2).sum

/-- `MultiVector.__init__` on a dict from basis-index tuples to coefficients
(source lines 325-381, case 2 of the docstring): resolve the space (no
dimension count is inferred from a dict), then normalize the tuple keys. -/
def MultiVector.fromTupleDict (entries : List (List ℕ × ℤ)) (osp : Option Space) :
    Except PyErr MultiVector :=
  (resolveSpace none osp).bind fun sp =>
    (normalizeTuples entries).map fun d => ⟨sp, d⟩

/-- `MultiVector.__init__` on a dict already keyed by blade bitmasks (source
lines 325-381, case 3): the keys are not tuples, so the normalization branch
is skipped and the dict is stored verbatim. -/
def MultiVector.fromBitmapDict (d : GaDict) (osp : Option Space) :
    Except PyErr MultiVector :=
  (resolveSpace none osp).map fun sp => ⟨sp, d⟩

/-- `MultiVector.__init__` on a bare scalar (source lines 325-381, case 4):
the data becomes `{0: data}`, stored verbatim (even a zero scalar is
stored). -/
def MultiVector.fromScalar (c : ℤ) (osp : Option Space) : Except PyErr MultiVector :=
  (resolveSpace none osp).map fun sp => ⟨sp, GaDict.single 0 c⟩

/-- `MultiVector.__init__` on a one-dimensional numpy vector (source lines
325-381, case 1): the dimension count is the length, the data becomes the
tuple-keyed dict `{(i,): data[i]}`, and normalization runs on it. -/
def MultiVector.fromVector (v : List ℤ) (osp : Option Space) :
    Except PyErr MultiVector :=
  (resolveSpace (some v.length) osp).bind fun sp =>
    (normalizeTuples (v.enum.map fun p => ([p.1], p.2))).map fun d => ⟨sp, d⟩

/-- Decidable equality of `Except` results, used to state concrete facts
about operations that may raise. -/
instance {ε α : Type} [DecidableEq ε] [DecidableEq α] : DecidableEq (Except ε α) := fun x y =>
  match x, y with
  | .ok a, .ok b => decidable_of_iff (a = b) (by simp)
  | .error e, .error f => decidable_of_iff (e = f) (by simp)
  | .ok _, .error _ => isFalse (by simp)
  | .error _, .ok _ => isFalse (by simp)

/-- The property "the metric matrix is the identity", i.e. what the spec
calls a Euclidean Space.  Stated directly as a predicate because the code's
own `Space.is_euclidean` raises (see `C4_is_euclidean_always_raises`). -/
def Space.euclidean_metric (sp : Space) : Prop :=
  ∀ i ∈ Finset.range sp.dims, ∀ j ∈ Finset.range sp.dims,
    sp.m i j = if i = j then 1 else 0

instance (sp : Space) : Decidable sp.euclidean_metric :=
  inferInstanceAs (Decidable (∀ i ∈ Finset.range sp.dims, ∀ j ∈ Finset.range sp.dims,
    sp.m i j = if i = j then 1 else 0))

/-- Every stored blade bitmask mentions only basis vectors of the owning
space (true of every multivector reachable through the construction paths;
a raw bitmask dict could violate it, and the source would then index its
metric matrix out of range). -/
def MultiVector.in_space (A : MultiVector) : Prop :=
  ∀ k ∈ A.data.keys, k < 2 ^ A.space.dims

instance (A : MultiVector) : Decidable A.in_space :=
  inferInstanceAs (Decidable (∀ k ∈ A.data.keys, k < 2 ^ A.space.dims))

/-- The permutation of `Fin n` described by a length-`n` list `p` of
distinct entries below `n` (position `k` maps to `p[k]`); the bridge between
the list manipulated by `permutation_sign` and `Equiv.Perm.sign`.  The
inverse is found by finite search, keeping the definition executable. -/
def toPerm (n : ℕ) (p : List ℕ) (hb : ∀ k, k < n → p.getD k 0 < n)
    (hinj : ∀ k₁ k₂, k₁ < n → k₂ < n → p.getD k₁ 0 = p.getD k₂ 0 → k₁ = k₂) :
    Equiv.Perm (Fin n) :=
  have hbij : Function.Bijective
      (fun k : Fin n => (⟨p.getD k 0, hb k k.isLt⟩ : Fin n)) :=
    Finite.injective_iff_bijective.mp fun k₁ k₂ h =>
      Fin.ext (hinj k₁ k₂ k₁.isLt k₂.isLt (congrArg Fin.val h))
  ⟨fun k => ⟨p.getD k 0, hb k k.isLt⟩, Fintype.bijInv hbij,
    Fintype.leftInverse_bijInv hbij, Fintype.rightInverse_bijInv hbij⟩

/-! ## Supporting lemmas -/

theorem GaDict.eq_iff (d e : GaDict) :
    d = e ↔ d.keys = e.keys ∧ ∀ k ∈ d.keys, d.val k = e.val k := by
  constructor
  · rintro rfl
    exact ⟨rfl, fun _ _ => rfl⟩
  · rintro ⟨hk, hv⟩
    ext k
    · rw [hk]
    · by_cases h : k ∈ d.keys
      · exact hv k h
      · rw [d.zero_off k h, e.zero_off k (hk ▸ h)]

theorem GaDict.mem_ofFun_keys {s : Finset ℕ} {f : ℕ → ℤ} {k : ℕ} :
    k ∈ (GaDict.ofFun s f).keys ↔ k ∈ s ∧ f k ≠ 0 := by
  simp [GaDict.ofFun]

theorem GaDict.ofFun_val {s : Finset ℕ} {f : ℕ → ℤ} (h : ∀ k ∉ s, f k = 0) :
    (GaDict.ofFun s f).val = f := by
  funext k
  by_cases hs : k ∈ s
  · simp [GaDict.ofFun, hs]
  · simp [GaDict.ofFun, hs, h k hs]

theorem GaDict.ofFun_wf (s : Finset ℕ) (f : ℕ → ℤ) : (GaDict.ofFun s f).wf := by
  intro k hk
  rw [GaDict.mem_ofFun_keys] at hk
  by_cases hs : k ∈ s
  · simpa [GaDict.ofFun, hs] using hk.2
  · exact absurd hk.1 hs

theorem length_matEye (n : ℕ) : (matEye n).length = n := by
  simp [matEye]

theorem row_length_matEye (n : ℕ) : ∀ row ∈ matEye n, row.length = n := by
  intro row hrow
  simp only [matEye, List.mem_map] at hrow
  obtain ⟨i, -, rfl⟩ := hrow
  simp

theorem get_euclidean_space_some (n : ℕ) :
    get_euclidean_space (some n) = Except.ok (eucSpace n) := by
  simp only [get_euclidean_space, Space.init, eucSpace, Option.getD]
  rw [if_neg (by simp), if_pos ⟨length_matEye n, row_length_matEye n⟩]

/-! ## Claims C4, C10: construction-time failures -/

/-- C4: the claim says `Space.is_euclidean` returns whether the metric matrix
equals the identity.  In the code (line 161) the comparison reads
`self.mmat`, an attribute no `Space` instance has (`__init__` assigns only
`basis_names` and `metric_matrix`), so the property raises `AttributeError`
for every Space instead of returning anything. -/
theorem C4_is_euclidean_always_raises (sp : Space) :
    sp.is_euclidean = Except.error PyErr.attributeError := rfl

/-- C10: constructing a MultiVector from a mapping (tuple-keyed or
bitmask-keyed) or from a bare scalar without supplying a Space always fails:
no dimension count is inferred, `get_euclidean_space(None)` calls
`Space(None)`, and `Space.__init__` raises because neither `basis` nor
`metric_matrix` is given. -/
theorem C10_no_space_fails :
    (∀ d : GaDict, MultiVector.fromBitmapDict d none = Except.error PyErr.typeError) ∧
    (∀ entries : List (List ℕ × ℤ),
      MultiVector.fromTupleDict entries none = Except.error PyErr.typeError) ∧
    (∀ c : ℤ, MultiVector.fromScalar c none = Except.error PyErr.typeError) :=
  ⟨fun _ => rfl, fun _ => rfl, fun _ => rfl⟩

/-! ## Claim C5: concrete products in Euclidean 3-space -/

/-- C5: in the 3-dimensional Euclidean space, with `e0 = {1: 1}` and
`e1 = {2: 1}`: the geometric product `e0 * e1` equals the outer product
`e0 ^ e1`; `e1 * e0` equals `-(e0 ^ e1)`; and `(e0 ^ e1) * (e0 ^ e1)` equals
the multivector `MultiVector(-1, space)`, i.e. `-1`. -/
theorem C5_product_engine_3d :
    MultiVector.mul ⟨eucSpace 3, GaDict.single 1 1⟩ ⟨eucSpace 3, GaDict.single 2 1⟩ =
      MultiVector.outer ⟨eucSpace 3, GaDict.single 1 1⟩ ⟨eucSpace 3, GaDict.single 2 1⟩ ∧
    MultiVector.mul ⟨eucSpace 3, GaDict.single 2 1⟩ ⟨eucSpace 3, GaDict.single 1 1⟩ =
      Except.map MultiVector.neg
        (MultiVector.outer ⟨eucSpace 3, GaDict.single 1 1⟩ ⟨eucSpace 3, GaDict.single 2 1⟩) ∧
    (MultiVector.outer ⟨eucSpace 3, GaDict.single 1 1⟩
        ⟨eucSpace 3, GaDict.single 2 1⟩).bind (fun bv => bv.mul bv) =
      MultiVector.fromScalar (-1) (some (eucSpace 3)) := by
  refine ⟨by decide, by decide, by decide⟩

/-! ## Claim C3: operations across distinct Space instances -/

/-- C3 counterexample: the claim says equality comparison also rejects
operands whose Space is not the identical instance.  It does not:
`MultiVector.__eq__` never looks at the spaces, so two multivectors bound to
distinct (here: algebraically identical, different instance token) spaces
with equal data maps simply compare equal. -/
theorem C3_eq_ignores_space :
    (⟨⟨0, 2, matEye 2⟩, GaDict.empty⟩ : MultiVector).space ≠
      (⟨⟨1, 2, matEye 2⟩, GaDict.empty⟩ : MultiVector).space ∧
    MultiVector.pyEq ⟨⟨0, 2, matEye 2⟩, GaDict.empty⟩
      ⟨⟨1, 2, matEye 2⟩, GaDict.empty⟩ = true := by
  exact ⟨by decide, by decide⟩

/-- C3 (amended): addition, subtraction and every product kind (geometric,
outer, inner, both contractions, and the scalar product built on the generic
engine) raise `ValueError` when the operands' spaces are not the identical
instance; equality comparison, however, performs no space check and just
compares the data maps, so it treats multivectors with equal data as equal
regardless of their spaces. -/
theorem C3_cross_space_operations (A B : MultiVector) (h : A.space ≠ B.space) :
    A.add B = Except.error PyErr.valueError ∧
    A.sub B = Except.error PyErr.valueError ∧
    (∀ pk : GAProduct, A.generic_product B pk = Except.error PyErr.valueError) ∧
    A.scalar_product B = Except.error PyErr.valueError ∧
    (A.data = B.data → A.pyEq B = true) := by
  have hsub : A.space ≠ B.neg.space := h
  refine ⟨?_, ?_, fun pk => ?_, ?_, fun hd => ?_⟩
  · rw [MultiVector.add, if_pos h]
  · rw [MultiVector.sub, MultiVector.add, if_pos hsub]
  · rw [MultiVector.generic_product, if_pos h]
  · rw [MultiVector.scalar_product, MultiVector.generic_product, if_pos h]
    rfl
  · exact decide_eq_true hd

/-- C3 witness: the amended statement at the two concrete spaces of the
counterexample, with one nonzero coefficient. -/
theorem C3_cross_space_operations_witness :
    ((⟨⟨0, 2, matEye 2⟩, GaDict.single 1 1⟩ : MultiVector).space ≠
      (⟨⟨1, 2, matEye 2⟩, GaDict.single 1 1⟩ : MultiVector).space) ∧
    ((⟨⟨0, 2, matEye 2⟩, GaDict.single 1 1⟩ : MultiVector).add
        ⟨⟨1, 2, matEye 2⟩, GaDict.single 1 1⟩ = Except.error PyErr.valueError ∧
      (⟨⟨0, 2, matEye 2⟩, GaDict.single 1 1⟩ : MultiVector).sub
        ⟨⟨1, 2, matEye 2⟩, GaDict.single 1 1⟩ = Except.error PyErr.valueError ∧
      (∀ pk : GAProduct, (⟨⟨0, 2, matEye 2⟩, GaDict.single 1 1⟩ : MultiVector).generic_product
        ⟨⟨1, 2, matEye 2⟩, GaDict.single 1 1⟩ pk = Except.error PyErr.valueError) ∧
      (⟨⟨0, 2, matEye 2⟩, GaDict.single 1 1⟩ : MultiVector).scalar_product
        ⟨⟨1, 2, matEye 2⟩, GaDict.single 1 1⟩ = Except.error PyErr.valueError ∧
      ((⟨⟨0, 2, matEye 2⟩, GaDict.single 1 1⟩ : MultiVector).data =
          (⟨⟨1, 2, matEye 2⟩, GaDict.single 1 1⟩ : MultiVector).data →
        (⟨⟨0, 2, matEye 2⟩, GaDict.single 1 1⟩ : MultiVector).pyEq
          ⟨⟨1, 2, matEye 2⟩, GaDict.single 1 1⟩ = true)) :=
  ⟨by decide, C3_cross_space_operations _ _ (by decide)⟩

/-! ## Claim C6: non-diagonal metric -/

/-- C6: whenever both operands have at least one stored term and the shared
space has a non-diagonal metric, the geometric product raises
`NotImplementedError` (the generic weight function is hit on the first term
pair), while the outer product of the same operands succeeds (its generic
weight function is the orthogonal one). -/
theorem C6_nonorthogonal_products (A B : MultiVector) (hsp : A.space = B.space)
    (horth : A.space.is_orthogonal = false)
    (hA : A.data.keys.Nonempty) (hB : B.data.keys.Nonempty) :
    A.mul B = Except.error PyErr.notImplementedError ∧
    ∃ C, A.outer B = Except.ok C := by
  have hne : ¬ A.space ≠ B.space := fun hc => hc hsp
  constructor
  · rw [MultiVector.mul, MultiVector.generic_product, if_neg hne, if_neg (by simp [horth]),
      if_pos ⟨by decide, hA, hB⟩]
  · exact ⟨⟨A.space, GaDict.ofFun (prodKeys A.data B.data)
      (prodVal .outer A.space A.data B.data)⟩, by
      rw [MultiVector.outer, MultiVector.generic_product, if_neg hne, if_neg (by simp [horth]),
        if_neg (fun hc => absurd hc.1 (by decide))]⟩

/-- C6 witness: a 2-dimensional space with the all-ones (non-diagonal)
metric and two one-term multivectors on it. -/
theorem C6_nonorthogonal_products_witness :
    ((⟨⟨5, 2, [[1, 1], [1, 1]]⟩, GaDict.single 1 1⟩ : MultiVector).space =
        (⟨⟨5, 2, [[1, 1], [1, 1]]⟩, GaDict.single 2 1⟩ : MultiVector).space ∧
      (⟨⟨5, 2, [[1, 1], [1, 1]]⟩, GaDict.single 1 1⟩ :
          MultiVector).space.is_orthogonal = false) ∧
    (⟨⟨5, 2, [[1, 1], [1, 1]]⟩, GaDict.single 1 1⟩ : MultiVector).mul
        ⟨⟨5, 2, [[1, 1], [1, 1]]⟩, GaDict.single 2 1⟩ =
      Except.error PyErr.notImplementedError ∧
    ∃ C, (⟨⟨5, 2, [[1, 1], [1, 1]]⟩, GaDict.single 1 1⟩ : MultiVector).outer
        ⟨⟨5, 2, [[1, 1], [1, 1]]⟩, GaDict.single 2 1⟩ = Except.ok C :=
  ⟨⟨by decide, by decide⟩,
    C6_nonorthogonal_products _ _ (by decide) (by decide) (by decide) (by decide)⟩

/-! ## Claim C9: the scalar product engine always lands at bitmask 0 -/

theorem scalar_weight_eq (a b : ℕ) (sp : Space) :
    orthogonal_blade_product_weight .scalar a b sp =
      if a = b then shared_metric_coeff sp a else 0 := rfl

theorem eq_zero_of_xor_fixed {s nb : ℕ} (h : s = s ^^^ nb) : nb = 0 := by
  have h2 : s ^^^ s = s ^^^ (s ^^^ nb) := congrArg (s ^^^ ·) h
  rwa [Nat.xor_self, ← Nat.xor_assoc, Nat.xor_self, Nat.zero_xor, eq_comm] at h2

/-- Every term of the scalar-product accumulation at a nonzero result key has
weight `0`: the scalar weight is nonzero only when the two blade bitmasks
coincide, which forces the XOR key to be `0`. -/
theorem prodVal_scalar_ne_zero (sp : Space) (dA dB : GaDict) {nb : ℕ} (h : nb ≠ 0) :
    prodVal .scalar sp dA dB nb = 0 := by
  apply Finset.sum_eq_zero
  intro s _
  rw [scalar_weight_eq, if_neg (fun hc => h (eq_zero_of_xor_fixed hc))]
  ring

/-- C9: for operands on the identical space with a diagonal metric whose
stored blade bitmasks are within the space's dimensions, `scalar_product`
never raises the not-a-scalar failure: every stored key of the generic
scalar product is `0`, `as_scalar` succeeds, and the result is `0` when the
product dict is empty.  The in-range hypotheses keep every metric read of
`_shared_metric_coeff` inside the `dims × dims` matrix: without them the
program itself raises `IndexError` on inputs such as
`MultiVector({8: 1}, Space(2))` (an error path the total `Space.m`
collapses), though even there the failure raised is never the not-a-scalar
`ValueError` of `as_scalar`. -/
theorem C9_scalar_product_never_nonscalar (A B : MultiVector) (hsp : A.space = B.space)
    (horth : A.space.is_orthogonal = true)
    (hinA : A.in_space) (hinB : B.in_space) :
    ∃ q, A.scalar_product B = Except.ok q ∧
      ((GaDict.ofFun (prodKeys A.data B.data)
        (prodVal .scalar A.space A.data B.data)).keys = ∅ → q = 0) := by
  have hne : ¬ A.space ≠ B.space := fun hc => hc hsp
  refine ⟨(GaDict.ofFun (prodKeys A.data B.data)
    (prodVal .scalar A.space A.data B.data)).val 0, ?_, ?_⟩
  · have hkeys : ∀ k ∈ (GaDict.ofFun (prodKeys A.data B.data)
        (prodVal .scalar A.space A.data B.data)).keys, k = 0 := by
      intro k hk
      rw [GaDict.mem_ofFun_keys] at hk
      by_contra hk0
      exact hk.2 (prodVal_scalar_ne_zero A.space A.data B.data hk0)
    rw [MultiVector.scalar_product, MultiVector.generic_product, if_neg hne, if_pos horth]
    show MultiVector.as_scalar _ = _
    rw [MultiVector.as_scalar, if_pos hkeys]
  · intro hempty
    exact (GaDict.ofFun (prodKeys A.data B.data)
      (prodVal .scalar A.space A.data B.data)).zero_off 0 (by
        rw [hempty]; exact Finset.not_mem_empty 0)

/-- C9 witness: the basis vector `{1: 1}` of the Euclidean plane paired with
`{1: 2}`, both with in-range keys. -/
theorem C9_scalar_product_never_nonscalar_witness :
    ((⟨eucSpace 2, GaDict.single 1 1⟩ : MultiVector).space =
        (⟨eucSpace 2, GaDict.single 1 2⟩ : MultiVector).space ∧
      (⟨eucSpace 2, GaDict.single 1 1⟩ : MultiVector).space.is_orthogonal = true ∧
      (⟨eucSpace 2, GaDict.single 1 1⟩ : MultiVector).in_space ∧
      (⟨eucSpace 2, GaDict.single 1 2⟩ : MultiVector).in_space) ∧
    ∃ q, (⟨eucSpace 2, GaDict.single 1 1⟩ : MultiVector).scalar_product
        ⟨eucSpace 2, GaDict.single 1 2⟩ = Except.ok q ∧
      ((GaDict.ofFun (prodKeys (GaDict.single 1 1) (GaDict.single 1 2))
        (prodVal .scalar (eucSpace 2) (GaDict.single 1 1) (GaDict.single 1 2))).keys = ∅ →
        q = 0) :=
  ⟨⟨by decide, by decide, by decide, by decide⟩,
    C9_scalar_product_never_nonscalar ⟨eucSpace 2, GaDict.single 1 1⟩
      ⟨eucSpace 2, GaDict.single 1 2⟩ (by decide) (by decide) (by decide) (by decide)⟩

/-! ## Claim C8: additive structure -/

theorem add_dict_val (d e : GaDict) :
    (GaDict.ofFun (d.keys ∪ e.keys) fun b => d.val b + e.val b).val =
      fun b => d.val b + e.val b := by
  apply GaDict.ofFun_val
  intro k hk
  rw [Finset.mem_union, not_or] at hk
  rw [d.zero_off k hk.1, e.zero_off k hk.2, add_zero]

theorem mem_add_dict_keys (d e : GaDict) (b : ℕ) :
    b ∈ (GaDict.ofFun (d.keys ∪ e.keys) fun b => d.val b + e.val b).keys ↔
      d.val b + e.val b ≠ 0 := by
  rw [GaDict.mem_ofFun_keys]
  constructor
  · exact And.right
  · intro h
    refine ⟨?_, h⟩
    rw [Finset.mem_union]
    by_contra hc
    rw [not_or] at hc
    exact h (by rw [d.zero_off b hc.1, e.zero_off b hc.2, add_zero])

theorem add_dict_comm (d e : GaDict) :
    (GaDict.ofFun (d.keys ∪ e.keys) fun b => d.val b + e.val b) =
      GaDict.ofFun (e.keys ∪ d.keys) fun b => e.val b + d.val b := by
  rw [Finset.union_comm]
  congr 1
  funext b
  exact add_comm _ _

theorem add_dict_assoc (d e f : GaDict) :
    (GaDict.ofFun ((GaDict.ofFun (d.keys ∪ e.keys) fun b => d.val b + e.val b).keys ∪ f.keys)
      fun b => (GaDict.ofFun (d.keys ∪ e.keys) fun b => d.val b + e.val b).val b + f.val b) =
    GaDict.ofFun (d.keys ∪ (GaDict.ofFun (e.keys ∪ f.keys) fun b => e.val b + f.val b).keys)
      fun b => d.val b + (GaDict.ofFun (e.keys ∪ f.keys) fun b => e.val b + f.val b).val b := by
  ext b
  · rw [mem_add_dict_keys, mem_add_dict_keys, add_dict_val, add_dict_val]
    show d.val b + e.val b + f.val b ≠ 0 ↔ d.val b + (e.val b + f.val b) ≠ 0
    rw [add_assoc]
  · rw [add_dict_val, add_dict_val, add_dict_val, add_dict_val]
    show d.val b + e.val b + f.val b = d.val b + (e.val b + f.val b)
    rw [add_assoc]

/-- C8: multivector addition is commutative and associative (also through
the space-identity failure: mismatched spaces make both sides raise the same
`ValueError`), and `A + (-A)` is the zero multivector with empty data. -/
theorem C8_additive_laws :
    (∀ A B : MultiVector, A.add B = B.add A) ∧
    (∀ A B C : MultiVector,
      (A.add B).bind (fun AB => AB.add C) = (B.add C).bind fun BC => A.add BC) ∧
    ∀ A : MultiVector, A.add A.neg = Except.ok ⟨A.space, GaDict.empty⟩ := by
  have hok : ∀ X Y : MultiVector, X.space = Y.space →
      X.add Y = Except.ok ⟨X.space,
        GaDict.ofFun (X.data.keys ∪ Y.data.keys) fun b => X.data.val b + Y.data.val b⟩ :=
    fun X Y h => by rw [MultiVector.add, if_neg (fun hc => hc h)]
  have herr : ∀ X Y : MultiVector, X.space ≠ Y.space →
      X.add Y = Except.error PyErr.valueError :=
    fun X Y h => by rw [MultiVector.add, if_pos h]
  refine ⟨fun A B => ?_, fun A B C => ?_, fun A => ?_⟩
  · by_cases h : A.space = B.space
    · rw [hok A B h, hok B A h.symm, add_dict_comm, h]
    · rw [herr A B h, herr B A (fun hc => h hc.symm)]
  · by_cases hab : A.space = B.space
    · by_cases hbc : B.space = C.space
      · rw [hok A B hab, hok B C hbc]
        show MultiVector.add _ C = MultiVector.add A _
        rw [hok ⟨A.space, GaDict.ofFun (A.data.keys ∪ B.data.keys)
              fun b => A.data.val b + B.data.val b⟩ C (hab.trans hbc),
          hok A ⟨B.space, GaDict.ofFun (B.data.keys ∪ C.data.keys)
              fun b => B.data.val b + C.data.val b⟩ hab]
        exact congrArg (fun dd => Except.ok (⟨A.space, dd⟩ : MultiVector))
          (add_dict_assoc A.data B.data C.data)
      · rw [hok A B hab, herr B C hbc]
        show MultiVector.add _ C = Except.error PyErr.valueError
        rw [herr ⟨A.space, GaDict.ofFun (A.data.keys ∪ B.data.keys)
            fun b => A.data.val b + B.data.val b⟩ C (fun hc => hbc (hab.symm.trans hc))]
    · by_cases hbc : B.space = C.space
      · rw [herr A B hab, hok B C hbc]
        show Except.error PyErr.valueError = MultiVector.add A _
        rw [herr A ⟨B.space, GaDict.ofFun (B.data.keys ∪ C.data.keys)
            fun b => B.data.val b + C.data.val b⟩ hab]
      · rw [herr A B hab, herr B C hbc]
        rfl
  · rw [hok A A.neg rfl]
    refine congrArg (fun dd => Except.ok (⟨A.space, dd⟩ : MultiVector)) ?_
    ext b
    · rw [mem_add_dict_keys]
      show ¬ A.data.val b + A.neg.data.val b = 0 ↔ b ∈ GaDict.empty.keys
      show ¬ A.data.val b + -A.data.val b = 0 ↔ b ∈ (∅ : Finset ℕ)
      simp
    · rw [add_dict_val]
      show A.data.val b + -A.data.val b = GaDict.empty.val b
      show A.data.val b + -A.data.val b = 0
      simp

/-! ## Claim C2: the no-stored-zero invariant -/

theorem except_bind_ok {ε α β : Type} (a : α) (f : α → Except ε β) :
    (Except.ok a).bind f = f a := rfl

theorem except_bind_err {ε α β : Type} (e : ε) (f : α → Except ε β) :
    (Except.error e : Except ε α).bind f = Except.error e := rfl

theorem except_map_ok {ε α β : Type} (a : α) (f : α → β) :
    (Except.ok a : Except ε α).map f = Except.ok (f a) := rfl

theorem except_map_err {ε α β : Type} (e : ε) (f : α → β) :
    (Except.error e : Except ε α).map f = Except.error e := rfl

/-- Any multivector built by space resolution followed by tuple-key
normalization (the shared shape of the vector and tuple-dict construction
paths) has a data dict whose stored coefficients are all nonzero. -/
theorem bind_normalize_wf (r : Except PyErr Space) (entries : List (List ℕ × ℤ))
    (M : MultiVector)
    (h : (r.bind fun sp => (normalizeTuples entries).map fun d =>
      (⟨sp, d⟩ : MultiVector)) = Except.ok M) :
    M.data.wf := by
  cases r with
  | error e => rw [except_bind_err] at h; exact absurd h (by simp)
  | ok sp =>
    rw [except_bind_ok] at h
    unfold normalizeTuples at h
    cases hm : entries.mapM fun e => bits_and_sign e.1 with
    | error e => rw [hm, except_map_err, except_map_err] at h; exact absurd h (by simp)
    | ok l =>
      rw [hm, except_map_ok, except_map_ok] at h
      have hM := (Except.ok.injEq _ _).mp h
      rw [← hM]
      exact GaDict.ofFun_wf _ _

theorem fromVector_wf (v : List ℤ) (osp : Option Space) (M : MultiVector)
    (h : MultiVector.fromVector v osp = Except.ok M) : M.data.wf :=
  bind_normalize_wf _ _ _ h

theorem fromTupleDict_wf (entries : List (List ℕ × ℤ)) (osp : Option Space)
    (M : MultiVector) (h : MultiVector.fromTupleDict entries osp = Except.ok M) :
    M.data.wf :=
  bind_normalize_wf _ _ _ h

theorem add_wf (A B M : MultiVector) (h : A.add B = Except.ok M) : M.data.wf := by
  rw [MultiVector.add] at h
  by_cases hsp : A.space ≠ B.space
  · rw [if_pos hsp] at h
    exact absurd h (by simp)
  · rw [if_neg hsp] at h
    have hM := (Except.ok.injEq _ _).mp h
    rw [← hM]
    exact GaDict.ofFun_wf _ _

theorem generic_product_wf (A B : MultiVector) (pk : GAProduct) (M : MultiVector)
    (h : A.generic_product B pk = Except.ok M) : M.data.wf := by
  rw [MultiVector.generic_product] at h
  by_cases hsp : A.space ≠ B.space
  · rw [if_pos hsp] at h
    exact absurd h (by simp)
  · rw [if_neg hsp] at h
    by_cases horth : (A.space.is_orthogonal : Prop)
    · rw [if_pos horth] at h
      have hM := (Except.ok.injEq _ _).mp h
      rw [← hM]
      exact GaDict.ofFun_wf _ _
    · rw [if_neg horth] at h
      by_cases hraise : generic_weight_raises pk ∧ A.data.keys.Nonempty ∧ B.data.keys.Nonempty
      · rw [if_pos hraise] at h
        exact absurd h (by simp)
      · rw [if_neg hraise] at h
        have hM := (Except.ok.injEq _ _).mp h
        rw [← hM]
        exact GaDict.ofFun_wf _ _

/-- C2 (amended): the no-stored-zero invariant holds for every multivector
built from a dense vector or a basis-index-tuple mapping and for every
result of addition or of the generic product engine, and it is preserved by
negation, reversal, involution and grade projection.  (It does not hold for
the blade-bitmask-dict and bare-scalar construction paths, which store the
given data verbatim; see the counterexample.) -/
theorem C2_invariant_amended :
    (∀ (v : List ℤ) (osp : Option Space) (M : MultiVector),
      MultiVector.fromVector v osp = Except.ok M → M.data.wf) ∧
    (∀ (entries : List (List ℕ × ℤ)) (osp : Option Space) (M : MultiVector),
      MultiVector.fromTupleDict entries osp = Except.ok M → M.data.wf) ∧
    (∀ A B M : MultiVector, A.add B = Except.ok M → M.data.wf) ∧
    (∀ (A B : MultiVector) (pk : GAProduct) (M : MultiVector),
      A.generic_product B pk = Except.ok M → M.data.wf) ∧
    (∀ A : MultiVector, A.data.wf → A.neg.data.wf) ∧
    (∀ A : MultiVector, A.data.wf → A.rev.data.wf) ∧
    (∀ A : MultiVector, A.data.wf → A.invol.data.wf) ∧
    (∀ (A : MultiVector) (g : ℕ), A.data.wf → (A.project g).data.wf) := by
  refine ⟨fromVector_wf, fromTupleDict_wf, add_wf, generic_product_wf,
    fun A hA k hk => ?_, fun A hA k hk => ?_, fun A hA k hk => ?_,
    fun A g hA k hk => ?_⟩
  · show ¬ -A.data.val k = 0
    simpa using hA k hk
  · show ¬ (if bit_count k * (bit_count k - 1) / 2 % 2 = 0
      then A.data.val k else -A.data.val k) = 0
    have := hA k hk
    by_cases hc : bit_count k * (bit_count k - 1) / 2 % 2 = 0
    · rwa [if_pos hc]
    · rw [if_neg hc]
      simpa using this
  · show ¬ (if bit_count k % 2 = 0 then A.data.val k else -A.data.val k) = 0
    have := hA k hk
    by_cases hc : bit_count k % 2 = 0
    · rwa [if_pos hc]
    · rw [if_neg hc]
      simpa using this
  · have hk2 : k ∈ A.data.keys ∧ bit_count k = g := Finset.mem_filter.mp hk
    show ¬ (if bit_count k = g then A.data.val k else 0) = 0
    rw [if_pos hk2.2]
    exact hA k hk2.1

/-- C2 counterexample: constructing a MultiVector from the bare scalar `0`
(one of the construction paths the claim covers) stores the dict `{0: 0}`
verbatim, i.e. the key `0` is present with the exactly-zero coefficient, so
the claimed invariant fails. -/
theorem C2_zero_is_stored :
    MultiVector.fromScalar 0 (some (eucSpace 2)) =
      Except.ok ⟨eucSpace 2, GaDict.single 0 0⟩ ∧
    0 ∈ (GaDict.single 0 0).keys ∧ (GaDict.single 0 0).val 0 = 0 ∧
    ¬ (GaDict.single 0 0).wf :=
  ⟨by decide, by decide, by decide, by decide⟩

/-- C2 witness: the amended statement applied at concrete inputs (a
negation of a well-formed one-term multivector, and a concrete addition). -/
theorem C2_invariant_amended_witness :
    ((⟨eucSpace 1, GaDict.single 1 5⟩ : MultiVector).data.wf ∧
      (MultiVector.neg ⟨eucSpace 1, GaDict.single 1 5⟩).data.wf) ∧
    ((⟨eucSpace 1, GaDict.single 1 5⟩ : MultiVector).add
        (⟨eucSpace 1, GaDict.single 1 5⟩ : MultiVector) =
        Except.ok ⟨eucSpace 1, GaDict.ofFun
          ((GaDict.single 1 5).keys ∪ (GaDict.single 1 5).keys)
          fun b => (GaDict.single 1 5).val b + (GaDict.single 1 5).val b⟩ ∧
      (⟨eucSpace 1, GaDict.ofFun ((GaDict.single 1 5).keys ∪ (GaDict.single 1 5).keys)
          fun b => (GaDict.single 1 5).val b + (GaDict.single 1 5).val b⟩ :
        MultiVector).data.wf) :=
  ⟨⟨by decide, C2_invariant_amended.2.2.2.2.1 ⟨eucSpace 1, GaDict.single 1 5⟩ (by decide)⟩,
    ⟨by decide, C2_invariant_amended.2.2.1 ⟨eucSpace 1, GaDict.single 1 5⟩
      ⟨eucSpace 1, GaDict.single 1 5⟩
      ⟨eucSpace 1, GaDict.ofFun ((GaDict.single 1 5).keys ∪ (GaDict.single 1 5).keys)
        fun b => (GaDict.single 1 5).val b + (GaDict.single 1 5).val b⟩ (by decide)⟩⟩

/-! ## Claim C1: the sign bookkeeping of `rev` against `canonical_reordering_sign` -/

theorem bitCountGo_stable : ∀ fuel₁ fuel₂ i, i < fuel₁ → i < fuel₂ →
    bitCountGo fuel₁ i = bitCountGo fuel₂ i := by
  intro fuel₁
  induction fuel₁ with
  | zero => intro fuel₂ i h1 _; omega
  | succ f ih =>
    intro fuel₂ i h1 h2
    cases fuel₂ with
    | zero => omega
    | succ f₂ =>
      show (if i = 0 then 0 else bitCountGo f (i &&& (i - 1)) + 1) =
        (if i = 0 then 0 else bitCountGo f₂ (i &&& (i - 1)) + 1)
      by_cases h0 : i = 0
      · rw [if_pos h0, if_pos h0]
      · rw [if_neg h0, if_neg h0]
        have hle : i &&& (i - 1) ≤ i - 1 := Nat.and_le_right
        rw [ih f₂ (i &&& (i - 1)) (by omega) (by omega)]

theorem bit_count_rec (i : ℕ) (h : i ≠ 0) :
    bit_count i = bit_count (i &&& (i - 1)) + 1 := by
  have hle : i &&& (i - 1) ≤ i - 1 := Nat.and_le_right
  show bitCountGo (i + 1) i = bitCountGo ((i &&& (i - 1)) + 1) (i &&& (i - 1)) + 1
  rw [show bitCountGo (i + 1) i =
      if i = 0 then 0 else bitCountGo i (i &&& (i - 1)) + 1 from rfl, if_neg h,
    bitCountGo_stable i ((i &&& (i - 1)) + 1) (i &&& (i - 1)) (by omega) (by omega)]

theorem and_two_mul (a c : ℕ) : a &&& (2 * c) = 2 * ((a >>> 1) &&& c) := by
  apply Nat.eq_of_testBit_eq
  intro j
  cases j with
  | zero =>
    rw [Nat.testBit_and, Nat.testBit_zero, Nat.testBit_zero, Nat.testBit_zero]
    have h1 : 2 * c % 2 = 0 := by omega
    have h2 : 2 * ((a >>> 1) &&& c) % 2 = 0 := by omega
    simp [h1, h2]
  | succ j =>
    rw [Nat.testBit_and, Nat.testBit_succ, Nat.testBit_succ, Nat.testBit_succ]
    have h1 : 2 * c / 2 = c := by omega
    have h2 : 2 * ((a >>> 1) &&& c) / 2 = (a >>> 1) &&& c := by omega
    rw [h1, h2, Nat.testBit_and, Nat.shiftRight_one]

theorem and_two_mul_add_one (a c : ℕ) :
    a &&& (2 * c + 1) = 2 * ((a >>> 1) &&& c) + a % 2 := by
  apply Nat.eq_of_testBit_eq
  intro j
  cases j with
  | zero =>
    rw [Nat.testBit_and, Nat.testBit_zero, Nat.testBit_zero, Nat.testBit_zero]
    have h1 : (2 * c + 1) % 2 = 1 := by omega
    have h2 : (2 * ((a >>> 1) &&& c) + a % 2) % 2 = a % 2 := by omega
    rw [h2]
    simp [h1]
  | succ j =>
    rw [Nat.testBit_and, Nat.testBit_succ, Nat.testBit_succ, Nat.testBit_succ]
    have h1 : (2 * c + 1) / 2 = c := by omega
    have h2 : (2 * ((a >>> 1) &&& c) + a % 2) / 2 = (a >>> 1) &&& c := by omega
    rw [h1, h2, Nat.testBit_and, Nat.shiftRight_one]

theorem two_mul_and_pred (k : ℕ) (h : k ≠ 0) :
    (2 * k) &&& (2 * k - 1) = 2 * (k &&& (k - 1)) := by
  have h1 : 2 * k - 1 = 2 * (k - 1) + 1 := by omega
  rw [h1, and_two_mul_add_one]
  have h2 : 2 * k % 2 = 0 := by omega
  have h3 : (2 * k) >>> 1 = k := by rw [Nat.shiftRight_one]; omega
  rw [h2, h3, Nat.add_zero]

theorem bit_count_two_mul (k : ℕ) : bit_count (2 * k) = bit_count k := by
  induction k using Nat.strong_induction_on with
  | _ k ih =>
    by_cases h : k = 0
    · rw [h]
    · have hlt : k &&& (k - 1) < k :=
        lt_of_le_of_lt Nat.and_le_right (by omega)
      rw [bit_count_rec (2 * k) (by omega), two_mul_and_pred k h, ih _ hlt,
        ← bit_count_rec k h]

theorem bit_count_two_mul_add_one (k : ℕ) :
    bit_count (2 * k + 1) = bit_count k + 1 := by
  have h1 : 2 * k + 1 - 1 = 2 * k := by omega
  have h2 : (2 * k + 1) &&& (2 * k) = 2 * k := by
    have h3 : (2 * k + 1) >>> 1 = k := by rw [Nat.shiftRight_one]; omega
    rw [show (2 * k : ℕ) = 2 * k from rfl, and_two_mul, h3, Nat.and_self]
  rw [bit_count_rec (2 * k + 1) (by omega), h1, h2, bit_count_two_mul]

theorem bit_count_split (a : ℕ) : bit_count a = bit_count (a >>> 1) + a % 2 := by
  rw [Nat.shiftRight_one]
  by_cases h : a % 2 = 0
  · rw [h, Nat.add_zero]
    conv_lhs => rw [show a = 2 * (a / 2) by omega]
    rw [bit_count_two_mul]
  · have h1 : a % 2 = 1 := by omega
    rw [h1]
    conv_lhs => rw [show a = 2 * (a / 2) + 1 by omega]
    rw [bit_count_two_mul_add_one]

theorem crsSumGo_stable : ∀ fuel₁ fuel₂ a b, a < fuel₁ → a < fuel₂ →
    crsSumGo fuel₁ a b = crsSumGo fuel₂ a b := by
  intro fuel₁
  induction fuel₁ with
  | zero => intro fuel₂ a b h1 _; omega
  | succ f ih =>
    intro fuel₂ a b h1 h2
    cases fuel₂ with
    | zero => omega
    | succ f₂ =>
      show (if a = 0 then 0 else bit_count (a &&& b) + crsSumGo f (a >>> 1) b) =
        (if a = 0 then 0 else bit_count (a &&& b) + crsSumGo f₂ (a >>> 1) b)
      by_cases h0 : a = 0
      · rw [if_pos h0, if_pos h0]
      · rw [if_neg h0, if_neg h0]
        have hlt : a >>> 1 < a := by rw [Nat.shiftRight_one]; omega
        rw [ih f₂ (a >>> 1) b (by omega) (by omega)]

theorem crs_sum_rec (a b : ℕ) :
    crs_sum a b = bit_count (a &&& b) + crs_sum (a >>> 1) b := by
  by_cases h : a = 0
  · rw [h]
    show 0 = bit_count (0 &&& b) + crs_sum (0 >>> 1) b
    rw [Nat.zero_and]
    rfl
  · have hlt : a >>> 1 < a := by rw [Nat.shiftRight_one]; omega
    show crsSumGo (a + 1) a b = _
    rw [show crsSumGo (a + 1) a b =
        if a = 0 then 0 else bit_count (a &&& b) + crsSumGo a (a >>> 1) b from rfl,
      if_neg h, crsSumGo_stable a ((a >>> 1) + 1) (a >>> 1) b (by omega) (by omega)]
    rfl

theorem crs_sum_two_mul (a c : ℕ) : crs_sum a (2 * c) = crs_sum (a >>> 1) c := by
  induction a using Nat.strong_induction_on with
  | _ a ih =>
    by_cases h : a = 0
    · rw [h]
      rfl
    · have hlt : a >>> 1 < a := by rw [Nat.shiftRight_one]; omega
      rw [crs_sum_rec a (2 * c), crs_sum_rec (a >>> 1) c, and_two_mul,
        bit_count_two_mul, ih (a >>> 1) hlt]

theorem crs_sum_two_mul_add_one (a c : ℕ) :
    crs_sum a (2 * c + 1) = crs_sum (a >>> 1) c + bit_count a := by
  induction a using Nat.strong_induction_on with
  | _ a ih =>
    by_cases h : a = 0
    · rw [h]
      rfl
    · have hlt : a >>> 1 < a := by rw [Nat.shiftRight_one]; omega
      rw [crs_sum_rec a (2 * c + 1), and_two_mul_add_one, ih (a >>> 1) hlt,
        crs_sum_rec (a >>> 1) c]
      have hsplit : bit_count a = bit_count (a >>> 1) + a % 2 := bit_count_split a
      by_cases hp : a % 2 = 0
      · rw [hp, Nat.add_zero, bit_count_two_mul]
        omega
      · have hp1 : a % 2 = 1 := by omega
        rw [hp1, bit_count_two_mul_add_one]
        omega

theorem triangle_succ (g : ℕ) :
    (g + 1) * ((g + 1) - 1) / 2 = g * (g - 1) / 2 + g := by
  cases g with
  | zero => rfl
  | succ h =>
    show (h + 2) * (h + 1) / 2 = (h + 1) * h / 2 + (h + 1)
    have h2 : (h + 2) * (h + 1) = (h + 1) * h + (h + 1) * 2 := by ring
    rw [h2, Nat.add_mul_div_right _ _ (by omega : (0 : ℕ) < 2)]

/-- The self-reordering sign count: interleaving a blade past itself takes
`g * (g - 1) / 2` swaps, where `g` is the blade's grade. -/
theorem crs_sum_self (B : ℕ) :
    crs_sum (B >>> 1) B = bit_count B * (bit_count B - 1) / 2 := by
  induction B using Nat.strong_induction_on with
  | _ B ih =>
    by_cases h : B = 0
    · rw [h]
      rfl
    · by_cases hp : B % 2 = 0
      · obtain ⟨C, hC⟩ : ∃ C, B = 2 * C := ⟨B / 2, by omega⟩
        have h1 : (2 * C) >>> 1 = C := by rw [Nat.shiftRight_one]; omega
        rw [hC, h1, crs_sum_two_mul, bit_count_two_mul]
        exact ih C (by omega)
      · obtain ⟨C, hC⟩ : ∃ C, B = 2 * C + 1 := ⟨B / 2, by omega⟩
        have h1 : (2 * C + 1) >>> 1 = C := by rw [Nat.shiftRight_one]; omega
        rw [hC, h1, crs_sum_two_mul_add_one, bit_count_two_mul_add_one,
          ih C (by omega), triangle_succ]

/-- For every blade, the canonical self-reordering sign times the `rev` sign
flip is the identity: both are `(-1) ^ (g * (g - 1) / 2)`. -/
theorem crs_self_mul_rev_val (A : MultiVector) (s : ℕ) :
    (canonical_reordering_sign s s : ℤ) * A.rev.data.val s = A.data.val s := by
  show (canonical_reordering_sign s s : ℤ) *
    (if bit_count s * (bit_count s - 1) / 2 % 2 = 0
      then A.data.val s else -A.data.val s) = A.data.val s
  rw [canonical_reordering_sign, crs_sum_self, Nat.and_one_is_mod]
  by_cases hT : bit_count s * (bit_count s - 1) / 2 % 2 = 0
  · rw [if_neg (by omega), if_pos hT, one_mul]
  · rw [if_pos (by omega), if_neg hT, neg_mul, one_mul, neg_neg]

theorem euclidean_is_orthogonal (sp : Space) (heu : sp.euclidean_metric) :
    sp.is_orthogonal = true := by
  apply decide_eq_true
  intro i hi j hj hne
  have := heu i hi j hj
  rwa [if_neg hne] at this

theorem testBit_lt_of_lt_two_pow {k n j : ℕ} (hk : k < 2 ^ n)
    (hj : k.testBit j = true) : j < n := by
  by_contra h
  have hlt : k < 2 ^ j := lt_of_lt_of_le hk (Nat.pow_le_pow_right (by omega) (by omega))
  rw [Nat.testBit_lt_two_pow hlt] at hj
  exact Bool.false_ne_true hj

theorem smcGo_euclidean (sp : Space) (heu : sp.euclidean_metric) :
    ∀ fuel bits idx, (∀ j, bits.testBit j = true → j + idx < sp.dims) →
      smcGo sp fuel bits idx = 1 := by
  intro fuel
  induction fuel with
  | zero => intro bits idx _; rfl
  | succ f ih =>
    intro bits idx hb
    show (if bits = 0 then (1 : ℤ)
      else if bits &&& 1 = 1 then sp.m idx idx * smcGo sp f (bits >>> 1) (idx + 1)
      else smcGo sp f (bits >>> 1) (idx + 1)) = 1
    by_cases h0 : bits = 0
    · rw [if_pos h0]
    · rw [if_neg h0]
      have hshift : ∀ j, (bits >>> 1).testBit j = true → j + (idx + 1) < sp.dims := by
        intro j hj
        rw [Nat.shiftRight_one, ← Nat.testBit_succ] at hj
        have := hb (j + 1) hj
        omega
      by_cases h1 : bits &&& 1 = 1
      · rw [if_pos h1, ih _ _ hshift, mul_one]
        have ht : bits.testBit 0 = true := by
          rw [Nat.testBit_zero, Nat.and_one_is_mod] at *
          exact decide_eq_true h1
        have hidx : idx < sp.dims := by
          have := hb 0 ht
          omega
        have := heu idx (Finset.mem_range.mpr hidx) idx (Finset.mem_range.mpr hidx)
        rwa [if_pos rfl] at this
      · rw [if_neg h1]
        exact ih _ _ hshift

theorem shared_metric_coeff_euclidean (sp : Space) (heu : sp.euclidean_metric)
    (bits : ℕ) (hb : ∀ j, bits.testBit j = true → j < sp.dims) :
    shared_metric_coeff sp bits = 1 := by
  apply smcGo_euclidean sp heu
  intro j hj
  have := hb j hj
  omega

/-- `prodVal` vanishes off the candidate key set (every term with a live
`B`-key would put the key into `prodKeys`). -/
theorem prodVal_zero_off (pk : GAProduct) (sp : Space) (dA dB : GaDict) :
    ∀ nb ∉ prodKeys dA dB, prodVal pk sp dA dB nb = 0 := by
  intro nb hnb
  apply Finset.sum_eq_zero
  intro s hs
  have hoff : s ^^^ nb ∉ dB.keys := by
    intro hmem
    apply hnb
    exact Finset.mem_image.mpr ⟨(s, s ^^^ nb), Finset.mem_product.mpr ⟨hs, hmem⟩,
      by rw [← Nat.xor_assoc, Nat.xor_self, Nat.zero_xor]⟩
  rw [dB.zero_off _ hoff, mul_zero]

/-- On the identical space with a diagonal metric, `scalar_product` returns
the coefficient accumulated at blade bitmask `0` (cf. C9): the helper shared
by the proofs about `scalar_product` and `norm_squared`. -/
theorem scalar_product_ok (A B : MultiVector) (hsp : A.space = B.space)
    (horth : A.space.is_orthogonal = true) :
    A.scalar_product B = Except.ok ((GaDict.ofFun (prodKeys A.data B.data)
      (prodVal .scalar A.space A.data B.data)).val 0) := by
  have hne : ¬ A.space ≠ B.space := fun hc => hc hsp
  have hkeys : ∀ k ∈ (GaDict.ofFun (prodKeys A.data B.data)
      (prodVal .scalar A.space A.data B.data)).keys, k = 0 := by
    intro k hk
    rw [GaDict.mem_ofFun_keys] at hk
    by_contra hk0
    exact hk.2 (prodVal_scalar_ne_zero A.space A.data B.data hk0)
  rw [MultiVector.scalar_product, MultiVector.generic_product, if_neg hne, if_pos horth]
  show MultiVector.as_scalar _ = _
  rw [MultiVector.as_scalar, if_pos hkeys]

/-- C1 counterexample: for the unit bivector `A = {3: 1}` of the Euclidean
plane, `scalar_product(A, A)` is `-1` while `norm_squared(A)` is `1`: the
claimed identity `scalar_product(A, A) == norm_squared(A)` fails (the first
argument must be reversed). -/
theorem C1_scalar_product_self_ne_norm_squared :
    MultiVector.scalar_product ⟨eucSpace 2, GaDict.single 3 1⟩
        ⟨eucSpace 2, GaDict.single 3 1⟩ = Except.ok (-1) ∧
    MultiVector.norm_squared ⟨eucSpace 2, GaDict.single 3 1⟩ = Except.ok 1 ∧
    MultiVector.scalar_product ⟨eucSpace 2, GaDict.single 3 1⟩
        ⟨eucSpace 2, GaDict.single 3 1⟩ ≠
      MultiVector.norm_squared ⟨eucSpace 2, GaDict.single 3 1⟩ :=
  ⟨by decide, by decide, by decide⟩

/-- C1 (amended): `norm_squared(A)` equals `scalar_product(rev(A), A)` (the
claim as written, with `A` replaced by `rev(A)` in the first argument), and
for a Space whose metric is the identity and ordered-ring coefficients it is
a nonnegative scalar, namely the sum of the squares of the coefficients. -/
theorem C1_norm_squared_nonneg (A : MultiVector) (heu : A.space.euclidean_metric)
    (hin : A.in_space) :
    A.norm_squared = A.rev.scalar_product A ∧
    ∃ q, A.norm_squared = Except.ok q ∧ 0 ≤ q := by
  refine ⟨rfl, ?_⟩
  have horth : A.rev.space.is_orthogonal = true := euclidean_is_orthogonal A.space heu
  rw [MultiVector.norm_squared, scalar_product_ok A.rev A rfl horth]
  refine ⟨_, rfl, ?_⟩
  rw [GaDict.ofFun_val (prodVal_zero_off .scalar A.rev.space A.rev.data A.data)]
  rw [prodVal]
  apply Finset.sum_nonneg
  intro s hs
  have hsk : s ∈ A.data.keys := hs
  have hrange : ∀ j, s.testBit j = true → j < A.space.dims :=
    fun j hj => testBit_lt_of_lt_two_pow (hin s hsk) hj
  rw [Nat.xor_zero, scalar_weight_eq, if_pos rfl,
    shared_metric_coeff_euclidean A.rev.space heu s hrange, one_mul,
    crs_self_mul_rev_val A s]
  exact mul_self_nonneg _

/-- C1 witness: the amended statement at the basis vector `{1: 1}` of the
Euclidean plane. -/
theorem C1_norm_squared_nonneg_witness :
    ((⟨eucSpace 2, GaDict.single 1 1⟩ : MultiVector).space.euclidean_metric ∧
      (⟨eucSpace 2, GaDict.single 1 1⟩ : MultiVector).in_space) ∧
    ((⟨eucSpace 2, GaDict.single 1 1⟩ : MultiVector).norm_squared =
        (MultiVector.rev ⟨eucSpace 2, GaDict.single 1 1⟩).scalar_product
          ⟨eucSpace 2, GaDict.single 1 1⟩ ∧
      ∃ q, (⟨eucSpace 2, GaDict.single 1 1⟩ : MultiVector).norm_squared =
        Except.ok q ∧ 0 ≤ q) :=
  ⟨⟨by decide, by decide⟩,
    C1_norm_squared_nonneg ⟨eucSpace 2, GaDict.single 1 1⟩ (by decide) (by decide)⟩

/-! ## Claim C7: `bits_and_sign` -/

theorem getD_set_self {p : List ℕ} {i : ℕ} (h : i < p.length) (v : ℕ) :
    (p.set i v).getD i 0 = v := by
  rw [List.getD_eq_getElem?_getD, List.getElem?_set, if_pos rfl, if_pos h]
  rfl

theorem getD_set_other {p : List ℕ} {i j : ℕ} (h : i ≠ j) (v : ℕ) :
    (p.set i v).getD j 0 = p.getD j 0 := by
  rw [List.getD_eq_getElem?_getD, List.getElem?_set, if_neg h,
    ← List.getD_eq_getElem?_getD]

theorem listSwap_length (p : List ℕ) (i j : ℕ) :
    (listSwap p i j).length = p.length := by
  simp [listSwap]

theorem listSwap_getD (p : List ℕ) (i j k : ℕ) (hi : i < p.length)
    (hj : j < p.length) :
    (listSwap p i j).getD k 0 =
      if k = j then p.getD i 0 else if k = i then p.getD j 0 else p.getD k 0 := by
  rw [listSwap]
  by_cases h1 : k = j
  · subst h1
    rw [if_pos rfl]
    exact getD_set_self (by rw [List.length_set]; exact hj) _
  · rw [if_neg h1, getD_set_other (fun hc => h1 hc.symm)]
    by_cases h2 : k = i
    · subst h2
      rw [if_pos rfl]
      exact getD_set_self hi _
    · rw [if_neg h2, getD_set_other (fun hc => h2 hc.symm)]

theorem findFrom_some : ∀ (fuel : ℕ) (p : List ℕ) (j tgt k : ℕ),
    findFrom fuel p j tgt = some k → j ≤ k ∧ k < p.length ∧ p.getD k 0 = tgt := by
  intro fuel
  induction fuel with
  | zero => intro p j tgt k h; exact absurd h (by simp [findFrom])
  | succ f ih =>
    intro p j tgt k h
    rw [show findFrom (f + 1) p j tgt = if j < p.length then
        (if p.getD j 0 = tgt then some j else findFrom f p (j + 1) tgt)
      else none from rfl] at h
    by_cases hj : j < p.length
    · rw [if_pos hj] at h
      by_cases ht : p.getD j 0 = tgt
      · rw [if_pos ht] at h
        have hk : j = k := Option.some.inj h
        subst hk
        exact ⟨le_refl j, hj, ht⟩
      · rw [if_neg ht] at h
        obtain ⟨h1, h2, h3⟩ := ih p (j + 1) tgt k h
        exact ⟨by omega, h2, h3⟩
    · rw [if_neg hj] at h
      exact absurd h (by simp)

theorem findFrom_isSome : ∀ (fuel : ℕ) (p : List ℕ) (j tgt : ℕ),
    p.length - j < fuel → (∃ k, j ≤ k ∧ k < p.length ∧ p.getD k 0 = tgt) →
    (findFrom fuel p j tgt).isSome = true := by
  intro fuel
  induction fuel with
  | zero => intro p j tgt hf _; omega
  | succ f ih =>
    intro p j tgt hf hex
    obtain ⟨k, hk1, hk2, hk3⟩ := hex
    have hj : j < p.length := by omega
    rw [show findFrom (f + 1) p j tgt = if j < p.length then
        (if p.getD j 0 = tgt then some j else findFrom f p (j + 1) tgt)
      else none from rfl, if_pos hj]
    by_cases ht : p.getD j 0 = tgt
    · rw [if_pos ht]
      rfl
    · rw [if_neg ht]
      apply ih p (j + 1) tgt (by omega)
      refine ⟨k, ?_, hk2, hk3⟩
      by_cases hkj : k = j
      · exact absurd (hkj ▸ hk3) ht
      · omega

/-- Correctness of the selection-style sign loop: started at position `i` on
a permutation list whose first `i` entries are already in place, with running
sign `s`, it terminates with `s` times the sign of the permutation the list
describes.  Induction on the fuel; each swap composes the permutation with a
transposition, flipping both the running sign and `Equiv.Perm.sign`. -/
theorem psGo_correct (n : ℕ) : ∀ (fuel : ℕ) (p : List ℕ) (i : ℕ) (s : ℤ),
    n - i < fuel → ∀ (hlen : p.length = n)
    (hb : ∀ k, k < n → p.getD k 0 < n)
    (hinj : ∀ k₁ k₂, k₁ < n → k₂ < n → p.getD k₁ 0 = p.getD k₂ 0 → k₁ = k₂),
    (∀ k, k < i → p.getD k 0 = k) →
    psGo fuel p i s = some (s * (Equiv.Perm.sign (toPerm n p hb hinj) : ℤ)) := by
  intro fuel
  induction fuel with
  | zero => intro p i s hfuel; omega
  | succ f ih =>
    intro p i s hfuel hlen hb hinj hpre
    rw [show psGo (f + 1) p i s = if i < p.length then
        (match findFrom (p.length + 1) p i i with
          | none => none
          | some j => if j = i then psGo f p (i + 1) s
            else psGo f (listSwap p i j) (i + 1) (-s))
      else some s from rfl]
    by_cases hi : i < p.length
    · rw [if_pos hi]
      have hi' : i < n := hlen ▸ hi
      have hex : ∃ k, i ≤ k ∧ k < p.length ∧ p.getD k 0 = i := by
        obtain ⟨k, hk⟩ := (toPerm n p hb hinj).surjective ⟨i, hi'⟩
        have hpk : p.getD (k : ℕ) 0 = i := congrArg Fin.val hk
        refine ⟨k, ?_, hlen ▸ k.isLt, hpk⟩
        by_contra hlt
        push_neg at hlt
        have := hpre k hlt
        omega
      have hsome := findFrom_isSome (p.length + 1) p i i (by omega) hex
      obtain ⟨j, hj⟩ := Option.isSome_iff_exists.mp hsome
      rw [hj]
      obtain ⟨hij, hjlen, hpj⟩ := findFrom_some _ p i i j hj
      show (if j = i then psGo f p (i + 1) s
        else psGo f (listSwap p i j) (i + 1) (-s)) =
        some (s * (Equiv.Perm.sign (toPerm n p hb hinj) : ℤ))
      by_cases hji : j = i
      · rw [if_pos hji]
        apply ih p (i + 1) s (by omega) hlen hb hinj
        intro k hk
        by_cases hki : k < i
        · exact hpre k hki
        · have hkeq : k = i := by omega
          rw [hkeq]
          exact hji ▸ hpj
      · rw [if_neg hji]
        have hjgt : i < j := by omega
        have hj' : j < n := hlen ▸ hjlen
        have hget' : ∀ k, (listSwap p i j).getD k 0 =
            p.getD (if k = j then i else if k = i then j else k) 0 := by
          intro k
          rw [listSwap_getD p i j k hi hjlen]
          by_cases h1 : k = j
          · rw [if_pos h1, if_pos h1]
          · rw [if_neg h1, if_neg h1]
            by_cases h2 : k = i
            · rw [if_pos h2, if_pos h2]
            · rw [if_neg h2, if_neg h2]
        have hswlt : ∀ k, k < n →
            (if k = j then i else if k = i then j else k) < n := by
          intro k hk
          by_cases h1 : k = j
          · rw [if_pos h1]; omega
          · rw [if_neg h1]
            by_cases h2 : k = i
            · rw [if_pos h2]; omega
            · rw [if_neg h2]; omega
        have hswinv : ∀ k, (if (if k = j then i else if k = i then j else k) = j
            then i else if (if k = j then i else if k = i then j else k) = i
            then j else (if k = j then i else if k = i then j else k)) = k := by
          intro k
          by_cases h1 : k = j
          · rw [if_pos h1]
            rw [if_neg (by omega : ¬ i = j), if_pos rfl, h1]
          · rw [if_neg h1]
            by_cases h2 : k = i
            · rw [if_pos h2, if_pos rfl, h2]
            · rw [if_neg h2, if_neg h1, if_neg h2]
        have hlen' : (listSwap p i j).length = n := by
          rw [listSwap_length]; exact hlen
        have hb' : ∀ k, k < n → (listSwap p i j).getD k 0 < n := by
          intro k hk
          rw [hget']
          exact hb _ (hswlt k hk)
        have hinj' : ∀ k₁ k₂, k₁ < n → k₂ < n →
            (listSwap p i j).getD k₁ 0 = (listSwap p i j).getD k₂ 0 → k₁ = k₂ := by
          intro k₁ k₂ h₁ h₂ heq
          rw [hget', hget'] at heq
          have hsw := hinj _ _ (hswlt k₁ h₁) (hswlt k₂ h₂) heq
          have e1 := (hswinv k₁).symm
          rw [hsw, hswinv k₂] at e1
          exact e1
        have hpre' : ∀ k, k < i + 1 → (listSwap p i j).getD k 0 = k := by
          intro k hk
          rw [hget']
          by_cases hkj : k = j
          · exact absurd hkj (by omega)
          · rw [if_neg hkj]
            by_cases hki : k = i
            · rw [if_pos hki, hpj, hki]
            · rw [if_neg hki]
              exact hpre k (by omega)
        rw [ih (listSwap p i j) (i + 1) (-s) (by omega) hlen' hb' hinj' hpre']
        congr 1
        have hne : (⟨i, hi'⟩ : Fin n) ≠ ⟨j, hj'⟩ := by
          intro hc
          have hvc : i = j := congrArg Fin.val hc
          omega
        have hperm : toPerm n (listSwap p i j) hb' hinj' =
            toPerm n p hb hinj * Equiv.swap ⟨i, hi'⟩ ⟨j, hj'⟩ := by
          apply Equiv.ext
          intro k
          apply Fin.ext
          show (listSwap p i j).getD (k : ℕ) 0 =
            p.getD ((Equiv.swap (⟨i, hi'⟩ : Fin n) ⟨j, hj'⟩ k : Fin n) : ℕ) 0
          rw [hget' k]
          congr 1
          rw [Equiv.swap_apply_def]
          by_cases h1 : (k : ℕ) = i
          · rw [if_neg (by omega : ¬ (k : ℕ) = j), if_pos h1,
              if_pos (Fin.ext h1 : k = ⟨i, hi'⟩)]
          · by_cases h2 : (k : ℕ) = j
            · rw [if_pos h2, if_neg (fun hc => h1 (congrArg Fin.val hc)),
                if_pos (Fin.ext h2 : k = ⟨j, hj'⟩)]
            · rw [if_neg h2, if_neg h1, if_neg (fun hc => h1 (congrArg Fin.val hc)),
                if_neg (fun hc => h2 (congrArg Fin.val hc))]
        rw [hperm, map_mul, Equiv.Perm.sign_swap hne]
        push_cast
        ring
    · rw [if_neg hi]
      have hid : toPerm n p hb hinj = 1 := by
        apply Equiv.ext
        intro k
        apply Fin.ext
        show p.getD (k : ℕ) 0 = ((1 : Equiv.Perm (Fin n)) k : ℕ)
        rw [Equiv.Perm.one_apply]
        exact hpre k (by omega)
      rw [hid, map_one]
      norm_num

theorem bladePerm_perm_range (t : List ℕ) :
    (bladePerm t).Perm (List.range t.length) := by
  have h1 : (sortedPairs t).Perm (t.enum.map fun p => (p.2, p.1)) :=
    List.perm_insertionSort _ _
  have h2 := h1.map Prod.snd
  rw [List.map_map, show (Prod.snd ∘ fun p : ℕ × ℕ => (p.2, p.1)) = Prod.fst from
    funext fun p => rfl, List.enum_map_fst] at h2
  exact h2

theorem bladePerm_length (t : List ℕ) : (bladePerm t).length = t.length := by
  rw [bladePerm_perm_range t |>.length_eq, List.length_range]

theorem bladePerm_nodup (t : List ℕ) : (bladePerm t).Nodup :=
  (bladePerm_perm_range t).nodup_iff.mpr (List.nodup_range _)

theorem bladePerm_bound (t : List ℕ) :
    ∀ k, k < t.length → (bladePerm t).getD k 0 < t.length := by
  intro k hk
  have hk' : k < (bladePerm t).length := by rw [bladePerm_length]; exact hk
  rw [List.getD_eq_get _ _ hk']
  have hmem := List.get_mem (bladePerm t) k hk'
  rw [(bladePerm_perm_range t).mem_iff, List.mem_range] at hmem
  exact hmem

theorem bladePerm_inj (t : List ℕ) :
    ∀ k₁ k₂, k₁ < t.length → k₂ < t.length →
      (bladePerm t).getD k₁ 0 = (bladePerm t).getD k₂ 0 → k₁ = k₂ := by
  intro k₁ k₂ h₁ h₂ h
  have h₁' : k₁ < (bladePerm t).length := by rw [bladePerm_length]; exact h₁
  have h₂' : k₂ < (bladePerm t).length := by rw [bladePerm_length]; exact h₂
  rw [List.getD_eq_get _ _ h₁', List.getD_eq_get _ _ h₂'] at h
  have := ((bladePerm_nodup t).get_inj_iff).mp h
  exact congrArg Fin.val this

theorem sortedPairs_length (t : List ℕ) : (sortedPairs t).length = t.length := by
  rw [sortedPairs, List.length_insertionSort, List.length_map, List.enum_length]

theorem mem_sortedPairs (t : List ℕ) {q : ℕ × ℕ} (hq : q ∈ sortedPairs t) :
    ∃ h : q.2 < t.length, t.get ⟨q.2, h⟩ = q.1 := by
  have hq2 : q ∈ t.enum.map fun p => (p.2, p.1) :=
    (List.perm_insertionSort _ _).mem_iff.mp hq
  rw [List.mem_map] at hq2
  obtain ⟨r, hr, hrq⟩ := hq2
  rw [List.mem_enum_iff_getElem?, List.getElem?_eq_some] at hr
  obtain ⟨h, hget⟩ := hr
  rcases r with ⟨i, a⟩
  cases hrq
  exact ⟨h, by rw [List.get_eq_getElem]; exact hget⟩

theorem sortedPairs_pairwise (t : List ℕ) :
    (sortedPairs t).Pairwise pairLe :=
  List.sorted_insertionSort pairLe _

theorem sortedPairs_fst_nodup (t : List ℕ) (ht : t.Nodup) :
    (List.map Prod.fst (sortedPairs t)).Nodup := by
  have hp := (List.perm_insertionSort pairLe (t.enum.map fun p => (p.2, p.1))).map Prod.fst
  rw [List.map_map, show (Prod.fst ∘ fun p : ℕ × ℕ => (p.2, p.1)) = Prod.snd from
    funext fun _ => rfl, List.enum_map_snd] at hp
  exact hp.nodup_iff.mpr ht

theorem sortedPairs_fst_strictMono (t : List ℕ) (ht : t.Nodup) :
    StrictMono (fun k : Fin (sortedPairs t).length => ((sortedPairs t).get k).1) := by
  intro k k' hlt
  have hle := (List.pairwise_iff_get.mp (sortedPairs_pairwise t)) k k' hlt
  rw [pairLe] at hle
  rcases hle with hle | ⟨heq, -⟩
  · exact hle
  · exfalso
    have hkk : k = k' := by
      have hmap : ∀ m : Fin (sortedPairs t).length,
          (List.map Prod.fst (sortedPairs t)).get
            ⟨m, by rw [List.length_map]; exact m.isLt⟩ = ((sortedPairs t).get m).1 := by
        intro m
        rw [List.get_map]
      have hkm : (k : ℕ) < (List.map Prod.fst (sortedPairs t)).length := by
        rw [List.length_map]; exact k.isLt
      have hkm' : (k' : ℕ) < (List.map Prod.fst (sortedPairs t)).length := by
        rw [List.length_map]; exact k'.isLt
      have hga : (List.map Prod.fst (sortedPairs t)).get ⟨k, hkm⟩ =
          (List.map Prod.fst (sortedPairs t)).get ⟨k', hkm'⟩ := by
        rw [hmap k, hmap k']
        exact heq
      have h2 := (sortedPairs_fst_nodup t ht).get_inj_iff.mp hga
      have h3 : (k : ℕ) = (k' : ℕ) := by simpa using h2
      exact Fin.ext h3
    rw [hkk] at hlt
    exact lt_irrefl _ hlt

theorem get_toPerm_bladePerm (t : List ℕ) (k : Fin t.length) :
    t.get ((toPerm t.length (bladePerm t) (bladePerm_bound t) (bladePerm_inj t)) k) =
      ((sortedPairs t).get ⟨k, by rw [sortedPairs_length]; exact k.isLt⟩).1 := by
  have hk2 : (k : ℕ) < (sortedPairs t).length := by
    rw [sortedPairs_length]; exact k.isLt
  obtain ⟨hlt2, hget⟩ := mem_sortedPairs t (List.get_mem (sortedPairs t) k hk2)
  have hk' : (k : ℕ) < (bladePerm t).length := by
    rw [bladePerm_length]; exact k.isLt
  have hv : ((toPerm t.length (bladePerm t) (bladePerm_bound t) (bladePerm_inj t)) k : ℕ) =
      ((sortedPairs t).get ⟨k, hk2⟩).2 := by
    show (bladePerm t).getD (k : ℕ) 0 = _
    rw [List.getD_eq_get _ _ hk']
    show (List.map Prod.snd (sortedPairs t)).get ⟨k, hk'⟩ = _
    rw [List.get_map]
  have hfin : (toPerm t.length (bladePerm t) (bladePerm_bound t) (bladePerm_inj t)) k =
      ⟨((sortedPairs t).get ⟨k, hk2⟩).2, hlt2⟩ := Fin.ext hv
  rw [hfin]
  exact hget

theorem toPerm_bladePerm_strictMono (t : List ℕ) (ht : t.Nodup) :
    StrictMono (fun k : Fin t.length =>
      t.get ((toPerm t.length (bladePerm t) (bladePerm_bound t) (bladePerm_inj t)) k)) := by
  intro k k' hlt
  show t.get _ < t.get _
  rw [get_toPerm_bladePerm t k, get_toPerm_bladePerm t k']
  exact sortedPairs_fst_strictMono t ht (by
    show ((⟨k, _⟩ : Fin (sortedPairs t).length)) < ⟨k', _⟩
    exact hlt)

theorem strictMono_get_unique (t : List ℕ) (ht : t.Nodup)
    (σ τ : Equiv.Perm (Fin t.length))
    (hσ : StrictMono fun k => t.get (σ k)) (hτ : StrictMono fun k => t.get (τ k)) :
    σ = τ := by
  have hcard : t.toFinset.card = t.length := List.toFinset_card_of_nodup ht
  have hfσ : (fun k => t.get (σ k)) = t.toFinset.orderEmbOfFin hcard :=
    Finset.orderEmbOfFin_unique hcard
      (fun x => List.mem_toFinset.mpr (List.get_mem _ _ _)) hσ
  have hfτ : (fun k => t.get (τ k)) = t.toFinset.orderEmbOfFin hcard :=
    Finset.orderEmbOfFin_unique hcard
      (fun x => List.mem_toFinset.mpr (List.get_mem _ _ _)) hτ
  apply Equiv.ext
  intro k
  have hgk : t.get (σ k) = t.get (τ k) := by
    rw [show t.get (σ k) = _ from congrFun hfσ k, show t.get (τ k) = _ from congrFun hfτ k]
  exact (ht.get_inj_iff).mp hgk

theorem permutation_sign_bladePerm (t : List ℕ) :
    permutation_sign (bladePerm t) = some
      ((Equiv.Perm.sign (toPerm t.length (bladePerm t)
        (bladePerm_bound t) (bladePerm_inj t)) : ℤ)) := by
  rw [permutation_sign, psGo_correct t.length ((bladePerm t).length + 1) (bladePerm t) 0 1
    (by rw [bladePerm_length]; omega) (bladePerm_length t) (bladePerm_bound t)
    (bladePerm_inj t) (fun k hk => absurd hk (by omega)), one_mul]

theorem bits_of_testBit (t : List ℕ) (j : ℕ) :
    (bits_of t).testBit j = true ↔ j ∈ t := by
  have key : ∀ (l : List ℕ) (acc : ℕ),
      ((l.foldl (fun bits bi => bits ||| 2 ^ bi) acc).testBit j = true) ↔
        (acc.testBit j = true ∨ j ∈ l) := by
    intro l
    induction l with
    | nil => intro acc; simp
    | cons b l ih =>
      intro acc
      rw [List.foldl_cons, ih, Nat.testBit_or, Nat.testBit_two_pow]
      simp only [List.mem_cons, Bool.or_eq_true, decide_eq_true_eq]
      constructor
      · rintro ((h | h) | h)
        · exact Or.inl h
        · exact Or.inr (Or.inl h.symm)
        · exact Or.inr (Or.inr h)
      · rintro (h | h | h)
        · exact Or.inl (Or.inl h)
        · exact Or.inl (Or.inr h.symm)
        · exact Or.inr h
  rw [bits_of, key]
  simp [Nat.zero_testBit]

/-- C7: for every tuple of distinct basis indices, `bits_and_sign` succeeds
and returns the bitmask with exactly the tuple's indices set, together with
the sign of the (unique) permutation that sorts the indices into ascending
order; in particular, constructing a MultiVector from the basis-index tuple
`(1, 0)` in the 2-dimensional Euclidean space equals constructing it from
`(0, 1)` with the coefficient negated. -/
theorem C7_bits_and_sign_correct :
    (∀ (t : List ℕ), t.Nodup → ∀ σ : Equiv.Perm (Fin t.length),
      StrictMono (fun k => t.get (σ k)) →
      ∃ B : ℕ, bits_and_sign t = Except.ok (B, (Equiv.Perm.sign σ : ℤ)) ∧
        ∀ j : ℕ, (B.testBit j = true ↔ j ∈ t)) ∧
    (∀ c : ℤ, MultiVector.fromTupleDict [([1, 0], c)] (some (eucSpace 2)) =
      MultiVector.fromTupleDict [([0, 1], -c)] (some (eucSpace 2))) := by
  constructor
  · intro t ht σ hσ
    refine ⟨bits_of t, ?_, bits_of_testBit t⟩
    have hτ := toPerm_bladePerm_strictMono t ht
    have hst : σ = toPerm t.length (bladePerm t) (bladePerm_bound t) (bladePerm_inj t) :=
      strictMono_get_unique t ht _ _ hσ hτ
    rw [bits_and_sign, if_pos ht, permutation_sign_bladePerm t, hst]
  · intro c
    have h1 : MultiVector.fromTupleDict [([1, 0], c)] (some (eucSpace 2)) =
        Except.ok ⟨eucSpace 2,
          GaDict.ofFun (([([1, 0], c)].map fun e => bits_of e.1).toFinset) fun b =>
            (([([1, 0], c)].filter fun e => bits_of e.1 = b).map
              fun e => (sign_of e.1 : ℤ) * e.2).sum⟩ := rfl
    have h2 : MultiVector.fromTupleDict [([0, 1], -c)] (some (eucSpace 2)) =
        Except.ok ⟨eucSpace 2,
          GaDict.ofFun (([([0, 1], -c)].map fun e => bits_of e.1).toFinset) fun b =>
            (([([0, 1], -c)].filter fun e => bits_of e.1 = b).map
              fun e => (sign_of e.1 : ℤ) * e.2).sum⟩ := rfl
    have hval : ∀ b, (([([1, 0], c)].filter fun e => bits_of e.1 = b).map
          fun e => (sign_of e.1 : ℤ) * e.2).sum =
        (([([0, 1], -c)].filter fun e => bits_of e.1 = b).map
          fun e => (sign_of e.1 : ℤ) * e.2).sum := by
      intro b
      simp only [List.filter_cons, List.filter_nil]
      by_cases hb : (3 : ℕ) = b
      · rw [if_pos (show decide (bits_of [1, 0] = b) = true from decide_eq_true hb),
          if_pos (show decide (bits_of [0, 1] = b) = true from decide_eq_true hb)]
        simp only [List.map_cons, List.map_nil, List.sum_cons, List.sum_nil]
        rw [show sign_of [1, 0] = -1 from rfl, show sign_of [0, 1] = 1 from rfl]
        ring
      · rw [if_neg (show ¬ decide (bits_of [1, 0] = b) = true from
            fun hc => hb (of_decide_eq_true hc)),
          if_neg (show ¬ decide (bits_of [0, 1] = b) = true from
            fun hc => hb (of_decide_eq_true hc))]
    have hd : GaDict.ofFun (([([1, 0], c)].map fun e => bits_of e.1).toFinset)
          (fun b => (([([1, 0], c)].filter fun e => bits_of e.1 = b).map
            fun e => (sign_of e.1 : ℤ) * e.2).sum) =
        GaDict.ofFun (([([0, 1], -c)].map fun e => bits_of e.1).toFinset)
          (fun b => (([([0, 1], -c)].filter fun e => bits_of e.1 = b).map
            fun e => (sign_of e.1 : ℤ) * e.2).sum) :=
      congrArg (GaDict.ofFun (([([1, 0], c)].map fun e => bits_of e.1).toFinset))
        (funext hval)
    rw [h1, h2, hd]

/-- C7 witness: the tuple `(1, 0)`, whose sorting permutation is the
transposition of the two positions. -/
theorem C7_bits_and_sign_correct_witness :
    (([1, 0] : List ℕ).Nodup ∧
      StrictMono (fun k : Fin ([1, 0] : List ℕ).length =>
        ([1, 0] : List ℕ).get ((Equiv.swap (0 : Fin 2) 1) k))) ∧
    (∃ B : ℕ, bits_and_sign [1, 0] =
        Except.ok (B, (Equiv.Perm.sign (Equiv.swap (0 : Fin 2) 1) : ℤ)) ∧
      ∀ j : ℕ, (B.testBit j = true ↔ j ∈ ([1, 0] : List ℕ))) := by
  have hmono : StrictMono (fun k : Fin ([1, 0] : List ℕ).length =>
      ([1, 0] : List ℕ).get ((Equiv.swap (0 : Fin 2) 1) k)) := by
    intro a b hab
    fin_cases a <;> fin_cases b <;>
      first
      | exact absurd hab (by decide)
      | decide
  exact ⟨⟨by decide, hmono⟩,
    C7_bits_and_sign_correct.1 [1, 0] (by decide) (Equiv.swap (0 : Fin 2) (1 : Fin 2)) hmono⟩
